import Mathlib

/-!
# notekeeper: reminder scheduler and note store

A shallow embedding of `tg_interface/telegram_notes.go` and `notekeeper.go`.

Conventions of the embedding:

* `time.Time` values are integers (nanoseconds on one timeline), `time.Duration`
  values are integers; `Before`/`After` are `<`/`>`, `Add` is `+`, and `Sub`
  saturates at the 64-bit duration range as in the Go library.
* every operation reads the clock through an explicit parameter `now`; one tick
  of the scheduler is evaluated at one instant.
* the Go type `int` is taken to be 64 bits wide.
* a run-time panic (index or slice bound out of range) is the value `none`.
* the outcome of `bot.Send` is an explicit Boolean supplied by the caller.
* `log.Printf` output is not represented.
* a Go string holding text is a list of characters (valid Unicode); file names and
  file contents are lists of bytes, the UTF-8 encoding of the text, because
  `prepareNoteName` cuts the heading at a byte offset.
* the value of `time.Now().Format(...)` used in a note name is a parameter `id`.
-/

namespace Notekeeper

/-! ## Reminder records (`telegram_notes.go`, lines 21-46) -/

/-- The struct `scheduledMessage`. -/
structure scheduledMessage where
  ChatID : Int
  MessageID : Int
  Created : Int
  NextAt : Int
  Complete : Bool
deriving DecidableEq, Repr

/-- Method `shouldBeSent`: `msg.NextAt.Before(time.Now())`. -/
def shouldBeSent (msg : scheduledMessage) (now : Int) : Bool :=
  decide (msg.NextAt < now)

/-- The `for ... range intervals` loop of `updateNextAt`; the result is the pair
`(msg.NextAt, isNextAtSet)` at loop exit. -/
def updateNextAtLoop (msg : scheduledMessage) (now : Int) : List Int → Int × Bool
  | [] => (msg.NextAt, false)
  | interval :: rest =>
    let tmp := msg.Created + interval
    if tmp > now then (tmp, true) else updateNextAtLoop msg now rest

/-- Method `updateNextAt`. -/
def updateNextAt (msg : scheduledMessage) (intervals : List Int) (now : Int) :
    scheduledMessage :=
  let r := updateNextAtLoop msg now intervals
  { msg with NextAt := r.1, Complete := !r.2 }

/-- The struct `Config` without the `bot` handle. -/
structure Config where
  intervals : List Int
  allowedChats : List Int
deriving DecidableEq, Repr

/-! ## Ordered insertion (`telegram_notes.go`, lines 112-118) -/

/-- The loop of Go's `sort.Search`: binary search on `[i, j)` with `fuel`
iterations available; `none` when the predicate panics or the fuel runs out
before the interval is empty. -/
def searchLoop (f : Nat → Option Bool) : Nat → Nat → Nat → Option Nat
  | 0, i, j => if i < j then none else some i
  | fuel + 1, i, j =>
    if i < j then
      let h := (i + j) / 2
      match f h with
      | none => none
      | some false => searchLoop f fuel (h + 1) j
      | some true => searchLoop f fuel i h
    else some i

/-- Go's `sort.Search(n, f)`. The interval shrinks at every iteration, so `n`
iterations are enough (`searchLoop_fuel`). -/
def Search (n : Nat) (f : Nat → Option Bool) : Option Nat :=
  searchLoop f n 0 n

/-- The closure passed to `sort.Search` in `insert`:
`s.NextAt.After(ss[i].NextAt)`, panicking when `i` is out of range. -/
def insertPred (ss : List scheduledMessage) (s : scheduledMessage) (i : Nat) :
    Option Bool :=
  (ss.get? i).map fun x => decide (s.NextAt > x.NextAt)

/-- The zero value `scheduledMessage{}`. -/
def zeroMessage : scheduledMessage :=
  { ChatID := 0, MessageID := 0, Created := 0, NextAt := 0, Complete := false }

/-- Function `insert`: search, grow by one zero element, shift the tail one
place to the right with `copy`, store `s` at the index found. -/
def insert (ss : List scheduledMessage) (s : scheduledMessage) :
    Option (List scheduledMessage) :=
  match Search ss.length (insertPred ss s) with
  | none => none
  | some i =>
    let ss1 := ss ++ [zeroMessage]
    if i + 1 ≤ ss1.length then
      let moved := (ss1.drop i).take (ss1.length - (i + 1))
      let ss2 := ss1.take (i + 1) ++ moved
      some (ss2.set i s)
    else none

/-- Repeated `insert`, as performed by the scheduler loop for a sequence of
records received on the channel. -/
def insertAll : List scheduledMessage → List scheduledMessage →
    Option (List scheduledMessage)
  | ss, [] => some ss
  | ss, s :: rest =>
    match insert ss s with
    | none => none
    | some ss1 => insertAll ss1 rest

/-! ## Outgoing chat messages -/

/-- Text of an outgoing message: a literal, or the reminder text
`Sprintf("It is time to remind you about this. Time passed since creation: %s", passed)`,
kept in structured form with the duration it prints. -/
inductive MessageText where
  | lit (s : String)
  | reminder (passed : Int)
deriving DecidableEq, Repr

/-- The fields of `tgbotapi.MessageConfig` that the program sets. -/
structure MessageConfig where
  ChatID : Int
  Text : MessageText
  ReplyToMessageID : Int
deriving DecidableEq, Repr

/-- The constructor `tgbotapi.NewMessage(chatID, text)`: no reply target. -/
def NewMessage (chatID : Int) (text : MessageText) : MessageConfig :=
  { ChatID := chatID, Text := text, ReplyToMessageID := 0 }

/-! ## The tick sweep (`telegram_notes.go`, lines 131-166) -/

/-- Smallest `time.Duration`. -/
def minDuration : Int := -(2 ^ 63)

/-- Largest `time.Duration`. -/
def maxDuration : Int := 2 ^ 63 - 1

/-- The method `Time.Sub`: the difference, saturated to the duration range. -/
def Sub (t u : Int) : Int :=
  let d := t - u
  if d < minDuration then minDuration else if d > maxDuration then maxDuration else d

/-- Function `sendReminder`; `ok` is whether `bot.Send` succeeded. Returns the
message handed to `bot.Send` and the record as left behind. -/
def sendReminder (config : Config) (now : Int) (ok : Bool) (msg : scheduledMessage) :
    MessageConfig × scheduledMessage :=
  let passed := Sub now msg.Created
  let text := MessageText.reminder passed
  let tgMsg := { NewMessage msg.ChatID text with ReplyToMessageID := msg.MessageID }
  if !ok then (tgMsg, msg)
  else (tgMsg, updateNextAt msg config.intervals now)

/-- State at the exit of the `for i := range allReminders` loop. -/
structure Sweep where
  allReminders : List scheduledMessage
  sentMessagesCount : Nat
  sent : List MessageConfig
deriving DecidableEq, Repr

/-- The `for i := range allReminders` loop, entered at index `i` with the
remaining elements and the current value of `sentMessagesCount`; `sendOk i` is
the outcome of the send made at index `i`. -/
def sweepLoop (config : Config) (now : Int) (sendOk : Nat → Bool) :
    Nat → List scheduledMessage → Nat → Sweep
  | _, [], count => { allReminders := [], sentMessagesCount := count, sent := [] }
  | i, current :: rest, count =>
    if !shouldBeSent current now then
      { allReminders := current :: rest, sentMessagesCount := count, sent := [] }
    else
      let r := sendReminder config now (sendOk i) current
      let tail := sweepLoop config now sendOk (i + 1) rest i
      { allReminders := r.2 :: tail.allReminders,
        sentMessagesCount := tail.sentMessagesCount,
        sent := r.1 :: tail.sent }

/-- The comparison closure given to `slices.SortFunc`:
`int(a.NextAt.Sub(b.NextAt).Nanoseconds())`. -/
def cmpNextAt (a b : scheduledMessage) : Int :=
  Sub a.NextAt b.NextAt

/-- The library call `slices.SortFunc(x, cmp)`, represented by a sorting function
for the same comparison. The library sort is not stable; the results below use only
that the output is a permutation of the input ordered by `cmp`. -/
def SortFunc (cmp : scheduledMessage → scheduledMessage → Int)
    (x : List scheduledMessage) : List scheduledMessage :=
  x.insertionSort fun a b => cmp a b ≤ 0

/-- The `case <-ticker.C` branch of `scheduleReminders`: the queue left behind
and the messages handed to `bot.Send`, in order. -/
def tick (config : Config) (now : Int) (sendOk : Nat → Bool)
    (allReminders : List scheduledMessage) : List scheduledMessage × List MessageConfig :=
  let sentMessagesCount := 0
  let s := sweepLoop config now sendOk 0 allReminders sentMessagesCount
  if s.sentMessagesCount > 0 then (SortFunc cmpNextAt s.allReminders, s.sent)
  else (s.allReminders, s.sent)

/-- The events the `select` of `scheduleReminders` reacts to. -/
inductive Event where
  | done
  | message (scheduledMsg : scheduledMessage)
  | tick (now : Int) (sendOk : Nat → Bool)

/-- State of the scheduler goroutine: the queue, every message handed to
`bot.Send` so far, and whether the loop is still running. -/
structure Scheduler where
  allReminders : List scheduledMessage
  sent : List MessageConfig
  running : Bool

/-- A scheduler at the start of `scheduleReminders`: `var allReminders` is nil. -/
def Scheduler.init : Scheduler :=
  { allReminders := [], sent := [], running := true }

/-- One iteration of the `for { select { ... } }` loop of `scheduleReminders`. -/
def scheduleStep (config : Config) (st : Scheduler) : Event → Option Scheduler
  | Event.done => some { st with running := false }
  | Event.message scheduledMsg =>
    match insert st.allReminders scheduledMsg with
    | none => none
    | some q => some { st with allReminders := q }
  | Event.tick now sendOk =>
    let r := tick config now sendOk st.allReminders
    some { st with allReminders := r.1, sent := st.sent ++ r.2 }

/-- Function `scheduleReminders` on a finite sequence of events; events after
cancellation are not processed. -/
def scheduleReminders (config : Config) : Scheduler → List Event → Option Scheduler
  | st, [] => some st
  | st, e :: rest =>
    if st.running then
      match scheduleStep config st e with
      | none => none
      | some st1 => scheduleReminders config st1 rest
    else some st

/-! ## Note store (`notekeeper.go`) -/

/-- The parts of Go's Unicode tables used by `sanitizeName`, for the characters from
U+0080 on: the classes `\p{L}` and `\p{N}` and the mapping `unicode.ToLower`. The
rows for ASCII are written out in `isLetter`, `isNumber` and `ToLower`. -/
structure UnicodeTables where
  letter : Char → Bool
  number : Char → Bool
  lower : Char → Char

/-- Membership in the class `\p{L}`. -/
def isLetter (U : UnicodeTables) (c : Char) : Bool :=
  let v := c.toNat
  if v < 0x80 then (0x41 ≤ v && v ≤ 0x5A) || (0x61 ≤ v && v ≤ 0x7A) else U.letter c

/-- Membership in the class `\p{N}`. -/
def isNumber (U : UnicodeTables) (c : Char) : Bool :=
  let v := c.toNat
  if v < 0x80 then 0x30 ≤ v && v ≤ 0x39 else U.number c

/-- The library function `unicode.ToLower`. -/
def ToLower (U : UnicodeTables) (c : Char) : Char :=
  let v := c.toNat
  if v < 0x80 then (if 0x41 ≤ v && v ≤ 0x5A then Char.ofNat (v + 32) else c)
  else U.lower c

/-- An excerpt of the Unicode tables, covering the blocks Latin-1 Supplement and
Cyrillic (U+0400 to U+04FF); outside these blocks it classes no character as a
letter or a number and maps every character to itself. It serves to evaluate
`sanitizeName` on concrete text written in ASCII and these blocks. -/
def tablesExcerpt : UnicodeTables where
  letter c :=
    let v := c.toNat
    v == 0xAA || v == 0xB5 || v == 0xBA ||
    (0xC0 ≤ v && v ≤ 0xD6) || (0xD8 ≤ v && v ≤ 0xF6) || (0xF8 ≤ v && v ≤ 0xFF) ||
    (0x400 ≤ v && v ≤ 0x481) || (0x48A ≤ v && v ≤ 0x4FF)
  number c :=
    let v := c.toNat
    v == 0xB2 || v == 0xB3 || v == 0xB9 || (0xBC ≤ v && v ≤ 0xBE)
  lower c :=
    let v := c.toNat
    if (0xC0 ≤ v && v ≤ 0xD6) || (0xD8 ≤ v && v ≤ 0xDE) ||
        (0x410 ≤ v && v ≤ 0x42F) then Char.ofNat (v + 32)
    else if 0x400 ≤ v && v ≤ 0x40F then Char.ofNat (v + 80)
    else if v == 0x4C0 then Char.ofNat 0x4CF
    else if 0x4C1 ≤ v && v ≤ 0x4CE then (if v % 2 == 1 then Char.ofNat (v + 1) else c)
    else if (0x460 ≤ v && v ≤ 0x481) || (0x48A ≤ v && v ≤ 0x4BF) ||
        (0x4D0 ≤ v && v ≤ 0x4FF) then (if v % 2 == 0 then Char.ofNat (v + 1) else c)
    else c

/-- The method `ReplaceAllLiteralString` for a pattern `[class]+`: every maximal run
of characters of the class is replaced by `repl`. `inRun` tells whether the
previous character belonged to a run. -/
def replaceRuns (p : Char → Bool) (repl : List Char) : Bool → List Char → List Char
  | _, [] => []
  | inRun, c :: cs =>
    if p c then (if inRun then [] else repl) ++ replaceRuns p repl true cs
    else c :: replaceRuns p repl false cs

/-- The method `ReplaceAllString` for a pattern `[class]` and a replacement without
`$`: every character of the class is replaced by `repl`. -/
def replaceEach (p : Char → Bool) (repl : List Char) : List Char → List Char
  | [] => []
  | c :: cs => if p c then repl ++ replaceEach p repl cs else c :: replaceEach p repl cs

/-- The library function `strings.Trim(s, cutset)`. -/
def Trim (s cutset : List Char) : List Char :=
  (s.dropWhile fun c => decide (c ∈ cutset)).rdropWhile fun c => decide (c ∈ cutset)

/-- The character class of the regexp `forbidden`. The Go literal
`"[:*?\"></\\| ]"` is the pattern `[:*?"></\| ]`, in which `\|` is an escaped `|`:
the class holds nine characters and the backslash is not one of them. -/
def forbidden : List Char :=
  [':', '*', '?', '"', '>', '<', '/', '|', ' ']

/-- The character class of the regexp `nonAlphaNumeric`, `[^\p{L}\p{N} ]`. -/
def nonAlphaNumeric (U : UnicodeTables) (c : Char) : Bool :=
  !(isLetter U c || isNumber U c || c == ' ')

/-- Function `sanitizeName`, on a string of valid Unicode text. -/
def sanitizeName (U : UnicodeTables) (name : List Char) : List Char :=
  let name := name.map (ToLower U)
  let name := replaceRuns (nonAlphaNumeric U) [] false name
  let name := Trim name [' ', '\t']
  let name := replaceEach (fun c => decide (c ∈ forbidden)) ['-'] name
  name

/-- UTF-8 bytes of one character. -/
def utf8EncodeChar (c : Char) : List Nat :=
  let v := c.toNat
  if v < 0x80 then [v]
  else if v < 0x800 then [0xC0 + v / 64, 0x80 + v % 64]
  else if v < 0x10000 then [0xE0 + v / 4096, 0x80 + v / 64 % 64, 0x80 + v % 64]
  else [0xF0 + v / 262144, 0x80 + v / 4096 % 64, 0x80 + v / 64 % 64, 0x80 + v % 64]

/-- The bytes of a Go string holding the given text. -/
def utf8Encode : List Char → List Nat
  | [] => []
  | c :: cs => utf8EncodeChar c ++ utf8Encode cs

/-- Function `prepareNoteName`; the result is a byte string because `heading[:bound]`
cuts at a byte offset. `id` is the value of
`time.Now().Format("2006-01-02T15-04-05")`. -/
def prepareNoteName (U : UnicodeTables) (id : List Char) (heading : List Char) :
    List Nat :=
  let heading := utf8Encode (sanitizeName U heading)
  let bound := min heading.length 60
  let heading := heading.take bound
  utf8Encode id ++ utf8Encode ['_'] ++ heading ++ utf8Encode ['.', 'm', 'd']

/-- The constant `storage_dir`. -/
def storage_dir : List Char := "./notes/".toList

/-- Errors of the filesystem calls. -/
inductive IOError where
  | mkdir
  | write
  | read
deriving DecidableEq, Repr

/-- The filesystem as the note store sees it: file contents by path, and which
calls fail. -/
structure FileSystem where
  files : List (List Nat × List Nat)
  mkdirAllFails : Bool
  writeFileFails : List Nat → Bool

/-- The library call `os.WriteFile(path, data, perm)` when it succeeds. -/
def FileSystem.write (fs : FileSystem) (path data : List Nat) : FileSystem :=
  { fs with files := (path, data) :: fs.files.filter fun e => decide (e.1 ≠ path) }

/-- Function `SaveNote`: the filesystem left behind, the returned name and the
returned error. -/
def SaveNote (U : UnicodeTables) (id : List Char) (fs : FileSystem) (note : List Char) :
    FileSystem × List Nat × Option IOError :=
  if fs.mkdirAllFails then (fs, [], some IOError.mkdir)
  else
    let heading := note.takeWhile fun c => decide (c ≠ '\n')
    let filename := prepareNoteName U id heading
    let path := utf8Encode storage_dir ++ filename
    if fs.writeFileFails path then (fs, [], some IOError.write)
    else (fs.write path (utf8Encode note), filename, none)

/-- Function `LoadNote`: the returned content and the returned error. -/
def LoadNote (fs : FileSystem) (name : List Nat) : List Nat × Option IOError :=
  match fs.files.lookup (utf8Encode storage_dir ++ name) with
  | none => ([], some IOError.read)
  | some content => (content, none)

/-! ## The update handler (`telegram_notes.go`, lines 72-110) -/

/-- The fields of `tgbotapi.Message` that `handleUpdate` reads. -/
structure Message where
  ChatID : Int
  MessageID : Int
  Text : List Char
deriving DecidableEq, Repr

/-- The type `tgbotapi.Update`: `Message` may be nil. -/
structure Update where
  Message : Option Message
deriving DecidableEq, Repr

/-- Everything `handleUpdate` acts on: the filesystem, the messages handed to
`bot.Send`, the records pushed onto the channel `messagesToSchedule` (oldest
first; the capacity of the channel is not represented), and a log of the
arguments of the calls of `SaveNote`. -/
structure World where
  fs : FileSystem
  sent : List MessageConfig
  messagesToSchedule : List scheduledMessage
  saveNoteCalls : List (List Char)

/-- Reply text of the branch for a chat outside `allowedChats`. -/
def textNotAllowed : MessageText :=
  MessageText.lit "Sorry, you are not allowed to use this bot 😢"

/-- Reply text of the branch for an empty message. -/
def textEmpty : MessageText :=
  MessageText.lit "Nothing to remind you about."

/-- Reply text of the branch where `SaveNote` returned an error. -/
def textSaveFailed : MessageText :=
  MessageText.lit
    "Failed to save note 😢 Try sending message again. If it does not help - we f*cked up."

/-- Reply text of the branch where the note was saved. -/
def textSaved : MessageText :=
  MessageText.lit "Message saved! We will remind you about it 😉"

/-- Function `handleUpdate`. `now` is the clock reading of line 100 and `id` the
formatted clock reading inside `prepareNoteName`. `none` is the index panic of
`config.intervals[0]`. -/
def handleUpdate (U : UnicodeTables) (config : Config) (now : Int) (id : List Char)
    (update : Update) (w : World) : Option World :=
  match update.Message with
  | none => some w
  | some m =>
    let chatId := m.ChatID
    let msg := NewMessage m.ChatID (MessageText.lit "")
    if !config.allowedChats.contains chatId then
      let msg := { msg with Text := textNotAllowed }
      some { w with sent := w.sent ++ [msg] }
    else if m.Text == [] then
      let msg := { msg with Text := textEmpty }
      some { w with sent := w.sent ++ [msg] }
    else
      let msg := { msg with ReplyToMessageID := m.MessageID }
      let r := SaveNote U id w.fs m.Text
      let w := { w with fs := r.1, saveNoteCalls := w.saveNoteCalls ++ [m.Text] }
      if r.2.2 ≠ none then
        let msg := { msg with Text := textSaveFailed }
        some { w with sent := w.sent ++ [msg] }
      else
        let msg := { msg with Text := textSaved }
        match config.intervals.head? with
        | none => none
        | some interval0 =>
          let nextAt := now + interval0
          let scheduled : scheduledMessage :=
            { ChatID := m.ChatID, MessageID := m.MessageID, Created := now,
              NextAt := nextAt, Complete := false }
          let w := { w with messagesToSchedule := w.messagesToSchedule ++ [scheduled] }
          some { w with sent := w.sent ++ [msg] }

/-- A filesystem without files in which every call succeeds. -/
def FileSystem.empty : FileSystem :=
  { files := [], mkdirAllFails := false, writeFileFails := fun _ => false }

/-- The world before any update: empty filesystem, nothing sent, empty channel. -/
def World.empty : World :=
  { fs := FileSystem.empty, sent := [], messagesToSchedule := [], saveNoteCalls := [] }

/-! ## Predicates used in the statements -/

/-- A queue is in ascending order: for every adjacent pair the first `NextAt` is
not after the second. -/
def Ascending : List scheduledMessage → Prop
  | [] => True
  | [_] => True
  | a :: b :: rest => a.NextAt ≤ b.NextAt ∧ Ascending (b :: rest)

/-- Ascending order is decidable. -/
def Ascending.dec : (q : List scheduledMessage) → Decidable (Ascending q)
  | [] => isTrue trivial
  | [_] => isTrue trivial
  | a :: b :: rest =>
    have := Ascending.dec (b :: rest)
    inferInstanceAs (Decidable (a.NextAt ≤ b.NextAt ∧ Ascending (b :: rest)))

instance (q : List scheduledMessage) : Decidable (Ascending q) := Ascending.dec q

/-- The message `sendReminder` hands to `bot.Send` for the record `msg` at `now`. -/
def reminderFor (now : Int) (msg : scheduledMessage) : MessageConfig :=
  { ChatID := msg.ChatID, Text := MessageText.reminder (Sub now msg.Created),
    ReplyToMessageID := msg.MessageID }

/-- A queue is in descending order: for every adjacent pair the first `NextAt` is
not before the second. -/
def Descending : List scheduledMessage → Prop
  | [] => True
  | [_] => True
  | a :: b :: rest => b.NextAt ≤ a.NextAt ∧ Descending (b :: rest)

/-- Descending order is decidable. -/
def Descending.dec : (q : List scheduledMessage) → Decidable (Descending q)
  | [] => isTrue trivial
  | [_] => isTrue trivial
  | a :: b :: rest =>
    have := Descending.dec (b :: rest)
    inferInstanceAs (Decidable (b.NextAt ≤ a.NextAt ∧ Descending (b :: rest)))

instance (q : List scheduledMessage) : Decidable (Descending q) := Descending.dec q

/-! ## Binary search and `insert` never panic -/

theorem searchLoop_fuel (f : Nat → Option Bool) (n : Nat)
    (hf : ∀ h, h < n → (f h).isSome = true) :
    ∀ fuel i j, j ≤ n → j - i ≤ fuel →
      ∃ r, searchLoop f fuel i j = some r ∧ (i ≤ j → i ≤ r ∧ r ≤ j) := by
  intro fuel
  induction fuel with
  | zero =>
    intro i j _ hfuel
    have hij : ¬ i < j := by omega
    exact ⟨i, by simp [searchLoop, hij], fun h => ⟨le_refl _, h⟩⟩
  | succ fuel ih =>
    intro i j hj hfuel
    by_cases hij : i < j
    · have hlo : i ≤ (i + j) / 2 := by omega
      have hhi : (i + j) / 2 < j := by omega
      have hsome := hf ((i + j) / 2) (by omega)
      cases hfh : f ((i + j) / 2) with
      | none => simp [hfh] at hsome
      | some b =>
        cases b with
        | false =>
          obtain ⟨r, hr, hb⟩ := ih ((i + j) / 2 + 1) j hj (by omega)
          refine ⟨r, by simp [searchLoop, hij, hfh, hr], fun _ => ?_⟩
          have := hb (by omega)
          omega
        | true =>
          obtain ⟨r, hr, hb⟩ := ih i ((i + j) / 2) (by omega) (by omega)
          refine ⟨r, by simp [searchLoop, hij, hfh, hr], fun _ => ?_⟩
          have := hb hlo
          omega
    · exact ⟨i, by simp [searchLoop, hij], fun h => ⟨le_refl _, h⟩⟩

theorem Search_total (f : Nat → Option Bool) (n : Nat)
    (hf : ∀ h, h < n → (f h).isSome = true) :
    ∃ r, Search n f = some r ∧ r ≤ n := by
  obtain ⟨r, hr, hb⟩ := searchLoop_fuel f n hf n 0 n (le_refl _) (by omega)
  exact ⟨r, hr, (hb (Nat.zero_le _)).2⟩

theorem insertPred_isSome (ss : List scheduledMessage) (s : scheduledMessage) :
    ∀ h, h < ss.length → (insertPred ss s h).isSome = true := by
  intro h hh
  simp [insertPred, List.getElem?_eq_getElem hh]

theorem insert_total (ss : List scheduledMessage) (s : scheduledMessage) :
    ∃ i, Search ss.length (insertPred ss s) = some i ∧ i ≤ ss.length ∧
      insert ss s = some (ss.take i ++ s :: ss.drop i) := by
  obtain ⟨i, hi, hle⟩ := Search_total (insertPred ss s) ss.length (insertPred_isSome ss s)
  refine ⟨i, hi, hle, ?_⟩
  have h1 : i + 1 ≤ (ss ++ [zeroMessage]).length := by simp; omega
  simp only [insert, hi, h1, if_true]
  congr 1
  apply List.ext_getElem
  · simp [List.length_take, List.length_drop]
    omega
  · intro k hk1 hk2
    simp only [List.length_set, List.length_append, List.length_take, List.length_drop,
      List.length_cons, List.length_nil] at hk1 hk2
    rw [List.getElem_set]
    by_cases hki : i = k
    · subst hki
      simp [List.getElem_append_right, List.length_take, Nat.min_eq_left hle]
    · simp only [hki, if_false]
      by_cases hlt : k < i
      · rw [List.getElem_append_left (by simp [List.length_take]; omega)]
        rw [List.getElem_append_left (by simp [List.length_take]; omega)]
        simp [List.getElem_take, List.getElem_append_left (show k < ss.length by omega)]
      · have hgt : i < k := by omega
        rw [List.getElem_append_right (by simp [List.length_take]; omega)]
        rw [List.getElem_append_right (by simp [List.length_take]; omega)]
        simp only [List.length_take, List.length_append, List.length_cons, List.length_nil]
        have e1 : k - min (i + 1) (ss.length + 1) = k - (i + 1) := by omega
        have e2 : k - min i ss.length = (k - (i + 1)) + 1 := by omega
        simp only [e1, e2, List.getElem_cons_succ, List.getElem_take, List.getElem_drop]
        rw [List.getElem_append_left (by omega)]

/-! ## Facts about `updateNextAt` -/

theorem updateNextAtLoop_none (msg : scheduledMessage) (now : Int) (intervals : List Int)
    (h : ∀ d ∈ intervals, ¬ msg.Created + d > now) :
    updateNextAtLoop msg now intervals = (msg.NextAt, false) := by
  induction intervals with
  | nil => rfl
  | cons d rest ih =>
    have hd : ¬ msg.Created + d > now := h d (List.mem_cons_self _ _)
    simp only [updateNextAtLoop, hd, if_false]
    exact ih fun x hx => h x (List.mem_cons_of_mem _ hx)

theorem updateNextAtLoop_some (msg : scheduledMessage) (now : Int) (intervals : List Int)
    (h : ∃ d ∈ intervals, msg.Created + d > now) :
    ∃ pre d0 post, intervals = pre ++ d0 :: post ∧
      (∀ d ∈ pre, ¬ msg.Created + d > now) ∧ msg.Created + d0 > now ∧
      updateNextAtLoop msg now intervals = (msg.Created + d0, true) := by
  induction intervals with
  | nil =>
    obtain ⟨d, hd, _⟩ := h
    cases hd
  | cons d rest ih =>
    by_cases hd : msg.Created + d > now
    · exact ⟨[], d, rest, rfl, by simp, hd, by simp [updateNextAtLoop, hd]⟩
    · have hrest : ∃ x ∈ rest, msg.Created + x > now := by
        obtain ⟨x, hx, hgt⟩ := h
        rcases List.mem_cons.mp hx with rfl | hx1
        · exact absurd hgt hd
        · exact ⟨x, hx1, hgt⟩
      obtain ⟨pre, d0, post, hsplit, hpre, hd0, hloop⟩ := ih hrest
      refine ⟨d :: pre, d0, post, by simp [hsplit], ?_, hd0, by simp [updateNextAtLoop, hd, hloop]⟩
      intro x hx
      rcases List.mem_cons.mp hx with rfl | hx1
      · exact hd
      · exact hpre x hx1

theorem updateNextAt_complete (msg : scheduledMessage) (intervals : List Int) (now : Int)
    (h : (updateNextAt msg intervals now).Complete = true) :
    updateNextAt msg intervals now = { msg with Complete := true } := by
  by_cases hex : ∃ d ∈ intervals, msg.Created + d > now
  · obtain ⟨_, _, _, _, _, _, hloop⟩ := updateNextAtLoop_some msg now intervals hex
    simp [updateNextAt, hloop] at h
  · have hall : ∀ d ∈ intervals, ¬ msg.Created + d > now := fun d hd hgt => hex ⟨d, hd, hgt⟩
    simp [updateNextAt, updateNextAtLoop_none msg now intervals hall]

/-! ## Facts about the sweep -/

theorem sweepLoop_length (config : Config) (now : Int) (sendOk : Nat → Bool) :
    ∀ (q : List scheduledMessage) (i count : Nat),
      (sweepLoop config now sendOk i q count).allReminders.length = q.length := by
  intro q
  induction q with
  | nil => intro i count; rfl
  | cons a rest ih =>
    intro i count
    by_cases ha : shouldBeSent a now = true
    · simp [sweepLoop, ha, ih]
    · simp [sweepLoop, ha]

theorem sweepLoop_sent (config : Config) (now : Int) (sendOk : Nat → Bool) :
    ∀ (q : List scheduledMessage) (i count : Nat),
      (sweepLoop config now sendOk i q count).sent =
        (q.takeWhile fun m => shouldBeSent m now).map (reminderFor now) := by
  intro q
  induction q with
  | nil => intro i count; rfl
  | cons a rest ih =>
    intro i count
    by_cases ha : shouldBeSent a now = true
    · have hfst : (sendReminder config now (sendOk i) a).1 = reminderFor now a := by
        unfold sendReminder reminderFor NewMessage
        cases sendOk i <;> rfl
      simp [sweepLoop, ha, ih, List.takeWhile_cons, hfst]
    · simp [sweepLoop, ha, List.takeWhile_cons]

theorem sweepLoop_mem (config : Config) (now : Int) (sendOk : Nat → Bool)
    (m : scheduledMessage) (post : List scheduledMessage)
    (hm : shouldBeSent m now = true) :
    ∀ (pre : List scheduledMessage) (i count : Nat),
      (∀ x ∈ pre, shouldBeSent x now = true) →
      (sendReminder config now (sendOk (i + pre.length)) m).2 ∈
        (sweepLoop config now sendOk i (pre ++ m :: post) count).allReminders := by
  intro pre
  induction pre with
  | nil =>
    intro i count _
    simp [sweepLoop, hm]
  | cons a rest ih =>
    intro i count hpre
    have ha : shouldBeSent a now = true := hpre a (List.mem_cons_self _ _)
    have hrest := ih (i + 1) i fun x hx => hpre x (List.mem_cons_of_mem _ hx)
    have hidx : i + (a :: rest).length = i + 1 + rest.length := by simp; omega
    rw [hidx]
    simp only [List.cons_append, sweepLoop, ha, Bool.not_true, Bool.false_eq_true, if_false]
    exact List.mem_cons_of_mem _ hrest

theorem sweepLoop_count (config : Config) (now : Int) (sendOk : Nat → Bool) :
    ∀ (q : List scheduledMessage) (i count : Nat),
      (sweepLoop config now sendOk i q count).sentMessagesCount = count ∨
      i ≤ (sweepLoop config now sendOk i q count).sentMessagesCount := by
  intro q
  induction q with
  | nil => intro i count; exact Or.inl rfl
  | cons a rest ih =>
    intro i count
    by_cases ha : shouldBeSent a now = true
    · simp only [sweepLoop, ha, Bool.not_true, Bool.false_eq_true, if_false]
      rcases ih (i + 1) i with h | h
      · exact Or.inr (le_of_eq h.symm)
      · exact Or.inr (by omega)
    · simp [sweepLoop, ha]

theorem sweepLoop_count_pos (config : Config) (now : Int) (sendOk : Nat → Bool)
    (a b : scheduledMessage) (rest : List scheduledMessage) (count : Nat)
    (ha : shouldBeSent a now = true) (hb : shouldBeSent b now = true) :
    0 < (sweepLoop config now sendOk 0 (a :: b :: rest) count).sentMessagesCount := by
  simp only [sweepLoop, ha, hb, Bool.not_true, Bool.false_eq_true, if_false]
  rcases sweepLoop_count config now sendOk rest 2 1 with h | h
  · simp only [Nat.zero_add, Nat.reduceAdd] at h ⊢
    omega
  · simp only [Nat.zero_add, Nat.reduceAdd] at h ⊢
    omega

/-! ## Facts about the sort -/

theorem Sub_nonpos_iff (t u : Int) : Sub t u ≤ 0 ↔ t ≤ u := by
  unfold Sub minDuration maxDuration
  norm_num
  split_ifs <;> omega

theorem SortFunc_perm (cmp : scheduledMessage → scheduledMessage → Int)
    (x : List scheduledMessage) : (SortFunc cmp x).Perm x :=
  List.perm_insertionSort _ x

theorem SortFunc_sorted (x : List scheduledMessage) :
    (SortFunc cmpNextAt x).Pairwise fun a b => a.NextAt ≤ b.NextAt := by
  haveI : IsTotal scheduledMessage (fun a b => cmpNextAt a b ≤ 0) :=
    ⟨fun a b => by
      simp only [cmpNextAt, Sub_nonpos_iff]
      exact le_total _ _⟩
  haveI : IsTrans scheduledMessage (fun a b => cmpNextAt a b ≤ 0) :=
    ⟨fun a b c => by
      simp only [cmpNextAt, Sub_nonpos_iff]
      exact le_trans⟩
  have h := List.sorted_insertionSort (fun a b => cmpNextAt a b ≤ 0) x
  exact List.Pairwise.imp (fun {a b} hab => (Sub_nonpos_iff _ _).mp hab) h

theorem tick_length (config : Config) (now : Int) (sendOk : Nat → Bool)
    (q : List scheduledMessage) : (tick config now sendOk q).1.length = q.length := by
  unfold tick
  simp only []
  split_ifs
  · rw [(SortFunc_perm _ _).length_eq, sweepLoop_length]
  · rw [sweepLoop_length]

theorem tick_mem (config : Config) (now : Int) (sendOk : Nat → Bool)
    (pre post : List scheduledMessage) (m : scheduledMessage)
    (hpre : ∀ x ∈ pre, shouldBeSent x now = true) (hm : shouldBeSent m now = true) :
    (sendReminder config now (sendOk pre.length) m).2 ∈
      (tick config now sendOk (pre ++ m :: post)).1 := by
  have h := sweepLoop_mem config now sendOk m post hm pre 0 0 hpre
  rw [Nat.zero_add] at h
  unfold tick
  simp only []
  split_ifs
  · exact (SortFunc_perm _ _).mem_iff.mpr h
  · exact h

theorem tick_sent (config : Config) (now : Int) (sendOk : Nat → Bool)
    (q : List scheduledMessage) :
    (tick config now sendOk q).2 =
      (q.takeWhile fun m => shouldBeSent m now).map (reminderFor now) := by
  unfold tick
  simp only []
  split_ifs <;> exact sweepLoop_sent config now sendOk q 0 0

theorem due_mem_takeWhile (now : Int) (m : scheduledMessage)
    (hm : shouldBeSent m now = true) :
    ∀ l : List scheduledMessage, (l.Pairwise fun a b => a.NextAt ≤ b.NextAt) → m ∈ l →
      m ∈ l.takeWhile fun x => shouldBeSent x now := by
  intro l
  induction l with
  | nil => intro _ h; cases h
  | cons a rest ih =>
    intro hs hmem
    have hle : a.NextAt ≤ m.NextAt := by
      rcases List.mem_cons.mp hmem with rfl | h
      · exact le_refl _
      · exact (List.pairwise_cons.mp hs).1 m h
    have ha : shouldBeSent a now = true := by
      simp only [shouldBeSent, decide_eq_true_eq] at hm ⊢
      omega
    rw [List.takeWhile_cons, ha]
    rcases List.mem_cons.mp hmem with rfl | h
    · exact List.mem_cons_self _ _
    · exact List.mem_cons_of_mem _ (ih (List.pairwise_cons.mp hs).2 h)

/-! ## Facts about `sanitizeName` -/

theorem mem_replaceRuns_nil (p : Char → Bool) (c : Char) :
    ∀ (l : List Char) (inRun : Bool), c ∈ replaceRuns p [] inRun l → c ∈ l ∧ p c = false := by
  intro l
  induction l with
  | nil => intro _ h; cases h
  | cons a rest ih =>
    intro inRun h
    by_cases ha : p a = true
    · have h1 : c ∈ replaceRuns p [] true rest := by
        cases inRun <;> simpa [replaceRuns, ha] using h
      exact ⟨List.mem_cons_of_mem _ (ih true h1).1, (ih true h1).2⟩
    · simp only [replaceRuns, ha, Bool.false_eq_true, if_false] at h
      rcases List.mem_cons.mp h with rfl | h1
      · exact ⟨List.mem_cons_self _ _, by simpa using ha⟩
      · exact ⟨List.mem_cons_of_mem _ (ih false h1).1, (ih false h1).2⟩

theorem mem_replaceEach (p : Char → Bool) (r c : Char) :
    ∀ l : List Char, c ∈ replaceEach p [r] l → c = r ∨ (c ∈ l ∧ p c = false) := by
  intro l
  induction l with
  | nil => intro h; cases h
  | cons a rest ih =>
    intro h
    by_cases ha : p a = true
    · simp only [replaceEach, ha, if_true, List.singleton_append] at h
      rcases List.mem_cons.mp h with rfl | h1
      · exact Or.inl rfl
      · rcases ih h1 with h2 | h2
        · exact Or.inl h2
        · exact Or.inr ⟨List.mem_cons_of_mem _ h2.1, h2.2⟩
    · simp only [replaceEach, ha, Bool.false_eq_true, if_false] at h
      rcases List.mem_cons.mp h with rfl | h1
      · exact Or.inr ⟨List.mem_cons_self _ _, by simpa using ha⟩
      · rcases ih h1 with h2 | h2
        · exact Or.inl h2
        · exact Or.inr ⟨List.mem_cons_of_mem _ h2.1, h2.2⟩

theorem mem_Trim (s cutset : List Char) (c : Char) (h : c ∈ Trim s cutset) : c ∈ s :=
  (List.dropWhile_sublist _).subset ((List.rdropWhile_prefix _ _).subset h)

/-! ## The claims -/

/-- C1 (the code departs from the claim): starting from the empty queue, inserting a
record with next-fire instant 1 and then a record with next-fire instant 2 puts the
later record in front, in `insert` and so in the scheduler loop, and the queue is
not in ascending order of `NextAt`. -/
theorem insert_sequence_not_ascending :
    insertAll []
        [{ ChatID := 7, MessageID := 1, Created := 0, NextAt := 1, Complete := false },
         { ChatID := 7, MessageID := 2, Created := 0, NextAt := 2, Complete := false }] =
      some
        [{ ChatID := 7, MessageID := 2, Created := 0, NextAt := 2, Complete := false },
         { ChatID := 7, MessageID := 1, Created := 0, NextAt := 1, Complete := false }] ∧
    (scheduleReminders { intervals := [10], allowedChats := [7] } Scheduler.init
        [Event.message
          { ChatID := 7, MessageID := 1, Created := 0, NextAt := 1, Complete := false },
         Event.message
          { ChatID := 7, MessageID := 2, Created := 0, NextAt := 2, Complete := false }]).map
        (fun st => st.allReminders) =
      some
        [{ ChatID := 7, MessageID := 2, Created := 0, NextAt := 2, Complete := false },
         { ChatID := 7, MessageID := 1, Created := 0, NextAt := 1, Complete := false }] ∧
    ¬ Ascending
        [{ ChatID := 7, MessageID := 2, Created := 0, NextAt := 2, Complete := false },
         { ChatID := 7, MessageID := 1, Created := 0, NextAt := 1, Complete := false }] := by
  decide

/-- C2 (the code departs from the claim): with intervals `[10, 30, 100]`, two records
created at instants 0 and 1 are inserted and a tick at instant 12 fires both, which
leaves the ascending queue with next-fire instants 30 and 31. At the tick at instant
31, with the send succeeding, only the front record fires and moves to instant 100;
`sentMessagesCount` holds the index 0, no sort runs, and the queue left behind is
not in ascending order. -/
theorem tick_front_only_not_resorted :
    (scheduleReminders { intervals := [10, 30, 100], allowedChats := [7] } Scheduler.init
        [Event.message
          { ChatID := 7, MessageID := 1, Created := 0, NextAt := 10, Complete := false },
         Event.message
          { ChatID := 7, MessageID := 2, Created := 1, NextAt := 11, Complete := false },
         Event.tick 12 (fun _ => true)]).map (fun st => st.allReminders) =
      some
        [{ ChatID := 7, MessageID := 1, Created := 0, NextAt := 30, Complete := false },
         { ChatID := 7, MessageID := 2, Created := 1, NextAt := 31, Complete := false }] ∧
    Ascending
        [{ ChatID := 7, MessageID := 1, Created := 0, NextAt := 30, Complete := false },
         { ChatID := 7, MessageID := 2, Created := 1, NextAt := 31, Complete := false }] ∧
    (sweepLoop { intervals := [10, 30, 100], allowedChats := [7] } 31 (fun _ => true) 0
        [{ ChatID := 7, MessageID := 1, Created := 0, NextAt := 30, Complete := false },
         { ChatID := 7, MessageID := 2, Created := 1, NextAt := 31, Complete := false }]
        0).sentMessagesCount = 0 ∧
    (tick { intervals := [10, 30, 100], allowedChats := [7] } 31 (fun _ => true)
        [{ ChatID := 7, MessageID := 1, Created := 0, NextAt := 30, Complete := false },
         { ChatID := 7, MessageID := 2, Created := 1, NextAt := 31, Complete := false }]).1 =
      [{ ChatID := 7, MessageID := 1, Created := 0, NextAt := 100, Complete := false },
       { ChatID := 7, MessageID := 2, Created := 1, NextAt := 31, Complete := false }] ∧
    ¬ Ascending
        (tick { intervals := [10, 30, 100], allowedChats := [7] } 31 (fun _ => true)
          [{ ChatID := 7, MessageID := 1, Created := 0, NextAt := 30, Complete := false },
           { ChatID := 7, MessageID := 2, Created := 1, NextAt := 31, Complete := false }]).1 := by
  decide

/-- C3 (the code departs from the claim): with intervals `[1]`, a record created at 0 is
inserted and the tick at instant 5 fires it; `updateNextAt` marks it complete, and the
queue after the tick still holds it, with `Complete = true` and its stale `NextAt`:
the queue after the tick does contain a record whose `Complete` flag is true. -/
theorem tick_completed_record_stays_example :
    (scheduleReminders { intervals := [1], allowedChats := [7] } Scheduler.init
        [Event.message
          { ChatID := 7, MessageID := 1, Created := 0, NextAt := 1, Complete := false },
         Event.tick 5 (fun _ => true)]).map (fun st => st.allReminders) =
      some [{ ChatID := 7, MessageID := 1, Created := 0, NextAt := 1, Complete := true }] ∧
    (tick { intervals := [1], allowedChats := [7] } 5 (fun _ => true)
        [{ ChatID := 7, MessageID := 1, Created := 0, NextAt := 1, Complete := false }]).1 =
      [{ ChatID := 7, MessageID := 1, Created := 0, NextAt := 1, Complete := true }] ∧
    ¬ ∀ m ∈ (tick { intervals := [1], allowedChats := [7] } 5 (fun _ => true)
        [{ ChatID := 7, MessageID := 1, Created := 0, NextAt := 1, Complete := false }]).1,
      m.Complete = false := by
  decide

/-- C3, the departure in general: no tick removes a record. For every queue and every
tick the queue after the tick has the length it had before, and a record that is
reached by the walk (all records before it are due and it is due), whose send succeeds
and which `updateNextAt` marks complete, is still in the queue after the tick, with
`Complete = true` and its other fields unchanged. -/
theorem tick_keeps_completed (config : Config) (now : Int) (sendOk : Nat → Bool)
    (pre post : List scheduledMessage) (m : scheduledMessage)
    (hpre : ∀ x ∈ pre, shouldBeSent x now = true) (hm : shouldBeSent m now = true)
    (hok : sendOk pre.length = true)
    (hdone : (updateNextAt m config.intervals now).Complete = true) :
    (tick config now sendOk (pre ++ m :: post)).1.length = (pre ++ m :: post).length ∧
    { m with Complete := true } ∈ (tick config now sendOk (pre ++ m :: post)).1 := by
  refine ⟨tick_length _ _ _ _, ?_⟩
  have h := tick_mem config now sendOk pre post m hpre hm
  have hsend : (sendReminder config now (sendOk pre.length) m).2 =
      { m with Complete := true } := by
    simp only [sendReminder, hok, Bool.not_true, Bool.false_eq_true, if_false]
    exact updateNextAt_complete m config.intervals now hdone
  rw [hsend] at h
  exact h

/-- C3, the departure in general, at a concrete input: one record created at 0,
intervals `[1]`, tick at instant 5 with the send succeeding. -/
theorem tick_keeps_completed_witness :
    (tick { intervals := [1], allowedChats := [7] } 5 (fun _ => true)
        ([] ++ { ChatID := 7, MessageID := 1, Created := 0, NextAt := 1, Complete := false }
          :: [])).1.length =
      ([] ++ ({ ChatID := 7, MessageID := 1, Created := 0, NextAt := 1, Complete := false } :
          scheduledMessage) :: []).length ∧
    { ({ ChatID := 7, MessageID := 1, Created := 0, NextAt := 1, Complete := false } :
          scheduledMessage) with Complete := true } ∈
      (tick { intervals := [1], allowedChats := [7] } 5 (fun _ => true)
        ([] ++ { ChatID := 7, MessageID := 1, Created := 0, NextAt := 1, Complete := false }
          :: [])).1 :=
  tick_keeps_completed { intervals := [1], allowedChats := [7] } 5 (fun _ => true) [] []
    { ChatID := 7, MessageID := 1, Created := 0, NextAt := 1, Complete := false }
    (by decide) (by decide) (by decide) (by decide)

/-- C4, counterexample: a tick at instant 5 whose send fails leaves the due record in
the queue, and the tick at instant 6 hands a reminder for it to `bot.Send` again. -/
theorem tick_failed_send_retried_example :
    ({ ChatID := 7, MessageID := 1, Created := 0, NextAt := 1, Complete := false } :
        scheduledMessage) ∈
      (tick { intervals := [10], allowedChats := [7] } 5 (fun _ => false)
        [{ ChatID := 7, MessageID := 1, Created := 0, NextAt := 1, Complete := false }]).1 ∧
    (tick { intervals := [10], allowedChats := [7] } 6 (fun _ => true)
      (tick { intervals := [10], allowedChats := [7] } 5 (fun _ => false)
        [{ ChatID := 7, MessageID := 1, Created := 0, NextAt := 1, Complete := false }]).1).2 =
      [{ ChatID := 7, Text := MessageText.reminder 6, ReplyToMessageID := 1 }] := by
  decide

/-- C4, amended: a send failure leaves the record in place. For every tick in which the
send for a record reached by the walk fails, that record is in the queue after the
tick with all fields unchanged, and a following tick at any instant not before the
first one hands a reminder for it to `bot.Send` again. -/
theorem tick_keeps_failed (config : Config) (now : Int) (sendOk : Nat → Bool)
    (pre post : List scheduledMessage) (m : scheduledMessage)
    (hpre : ∀ x ∈ pre, shouldBeSent x now = true) (hm : shouldBeSent m now = true)
    (hfail : sendOk pre.length = false) :
    m ∈ (tick config now sendOk (pre ++ m :: post)).1 ∧
    ∀ (later : Int) (sendOk2 : Nat → Bool), now ≤ later →
      reminderFor later m ∈
        (tick config later sendOk2 (tick config now sendOk (pre ++ m :: post)).1).2 := by
  have hmem : m ∈ (tick config now sendOk (pre ++ m :: post)).1 := by
    have h := tick_mem config now sendOk pre post m hpre hm
    simpa [sendReminder, hfail] using h
  refine ⟨hmem, ?_⟩
  intro later sendOk2 hlater
  have hdue : shouldBeSent m later = true := by
    simp only [shouldBeSent, decide_eq_true_eq] at hm ⊢
    omega
  rw [tick_sent]
  apply List.mem_map_of_mem
  by_cases hcount :
      0 < (sweepLoop config now sendOk 0 (pre ++ m :: post) 0).sentMessagesCount
  · have hq : (tick config now sendOk (pre ++ m :: post)).1 =
        SortFunc cmpNextAt (sweepLoop config now sendOk 0 (pre ++ m :: post) 0).allReminders := by
      simp [tick, hcount]
    rw [hq] at hmem ⊢
    exact due_mem_takeWhile later m hdue _ (SortFunc_sorted _) hmem
  · cases pre with
    | nil =>
      have hq : (tick config now sendOk ([] ++ m :: post)).1 =
          m :: (sweepLoop config now sendOk 1 post 0).allReminders := by
        have h0 : sendOk 0 = false := by simpa using hfail
        have hc : ¬ 0 < (sweepLoop config now sendOk 1 post 0).sentMessagesCount := by
          simpa [sweepLoop, hm] using hcount
        simp [tick, sweepLoop, hm, sendReminder, h0, hc]
      rw [hq, List.takeWhile_cons, hdue]
      exact List.mem_cons_self _ _
    | cons a rest =>
      exfalso
      apply hcount
      have ha : shouldBeSent a now = true := hpre a (List.mem_cons_self _ _)
      cases rest with
      | nil => exact sweepLoop_count_pos config now sendOk a m post 0 ha hm
      | cons b rest2 =>
        have hb : shouldBeSent b now = true :=
          hpre b (List.mem_cons_of_mem _ (List.mem_cons_self _ _))
        exact sweepLoop_count_pos config now sendOk a b (rest2 ++ m :: post) 0 ha hb

/-- C4, amended, at a concrete input: one due record, tick at instant 5 with the send
failing. -/
theorem tick_keeps_failed_witness :
    ({ ChatID := 7, MessageID := 1, Created := 0, NextAt := 1, Complete := false } :
        scheduledMessage) ∈
      (tick { intervals := [10], allowedChats := [7] } 5 (fun _ => false)
        ([] ++ { ChatID := 7, MessageID := 1, Created := 0, NextAt := 1, Complete := false }
          :: [])).1 ∧
    ∀ (later : Int) (sendOk2 : Nat → Bool), 5 ≤ later →
      reminderFor later
          { ChatID := 7, MessageID := 1, Created := 0, NextAt := 1, Complete := false } ∈
        (tick { intervals := [10], allowedChats := [7] } later sendOk2
          (tick { intervals := [10], allowedChats := [7] } 5 (fun _ => false)
            ([] ++ { ChatID := 7, MessageID := 1, Created := 0, NextAt := 1, Complete := false }
              :: [])).1).2 :=
  tick_keeps_failed { intervals := [10], allowedChats := [7] } 5 (fun _ => false) [] []
    { ChatID := 7, MessageID := 1, Created := 0, NextAt := 1, Complete := false }
    (by decide) (by decide) (by decide)

/-- C5: if some interval has its deadline `Created + d` strictly after `now`, then
`updateNextAt` sets `NextAt` to `Created + d0` for the first such interval `d0` in
list order (every interval before it has a deadline not after `now`) and leaves
`Complete = false`. -/
theorem updateNextAt_first_future (msg : scheduledMessage) (intervals : List Int)
    (now : Int) (h : ∃ d ∈ intervals, msg.Created + d > now) :
    ∃ pre d0 post, intervals = pre ++ d0 :: post ∧
      (∀ d ∈ pre, ¬ msg.Created + d > now) ∧ msg.Created + d0 > now ∧
      (updateNextAt msg intervals now).NextAt = msg.Created + d0 ∧
      (updateNextAt msg intervals now).Complete = false := by
  obtain ⟨pre, d0, post, hsplit, hpre, hd0, hloop⟩ :=
    updateNextAtLoop_some msg now intervals h
  exact ⟨pre, d0, post, hsplit, hpre, hd0, by simp [updateNextAt, hloop],
    by simp [updateNextAt, hloop]⟩

/-- C5 at a concrete input: created at 5, intervals `[10, 30, 100]`, instant 20; the
deadline 15 has passed and 35 is the first one ahead. -/
theorem updateNextAt_first_future_witness :
    ∃ pre d0 post, ([10, 30, 100] : List Int) = pre ++ d0 :: post ∧
      (∀ d ∈ pre, ¬ (5 : Int) + d > 20) ∧ (5 : Int) + d0 > 20 ∧
      (updateNextAt
          { ChatID := 7, MessageID := 1, Created := 5, NextAt := 15, Complete := false }
          [10, 30, 100] 20).NextAt = 5 + d0 ∧
      (updateNextAt
          { ChatID := 7, MessageID := 1, Created := 5, NextAt := 15, Complete := false }
          [10, 30, 100] 20).Complete = false :=
  updateNextAt_first_future
    { ChatID := 7, MessageID := 1, Created := 5, NextAt := 15, Complete := false }
    [10, 30, 100] 20 ⟨30, by decide, by decide⟩

/-- C6: after `updateNextAt`, `Complete` is true exactly when no interval of the list
(the empty list included) has its deadline `Created + d` strictly after `now`; and
when `Complete` is true, `NextAt` is the value it had before the call. -/
theorem updateNextAt_complete_iff (msg : scheduledMessage) (intervals : List Int)
    (now : Int) :
    ((updateNextAt msg intervals now).Complete = true ↔
      ∀ d ∈ intervals, ¬ msg.Created + d > now) ∧
    ((updateNextAt msg intervals now).Complete = true →
      (updateNextAt msg intervals now).NextAt = msg.NextAt) := by
  refine ⟨⟨fun hc d hd hgt => ?_, fun hall => ?_⟩, fun hc => ?_⟩
  · obtain ⟨_, _, _, _, _, _, hloop⟩ := updateNextAtLoop_some msg now intervals ⟨d, hd, hgt⟩
    simp [updateNextAt, hloop] at hc
  · simp [updateNextAt, updateNextAtLoop_none msg now intervals hall]
  · rw [updateNextAt_complete msg intervals now hc]

/-- C6 at a concrete input: created at 5, intervals `[10, 30]`, instant 40. -/
theorem updateNextAt_complete_iff_witness :
    ((updateNextAt
          { ChatID := 7, MessageID := 1, Created := 5, NextAt := 15, Complete := false }
          [10, 30] 40).Complete = true ↔
      ∀ d ∈ ([10, 30] : List Int), ¬ (5 : Int) + d > 40) ∧
    ((updateNextAt
          { ChatID := 7, MessageID := 1, Created := 5, NextAt := 15, Complete := false }
          [10, 30] 40).Complete = true →
      (updateNextAt
          { ChatID := 7, MessageID := 1, Created := 5, NextAt := 15, Complete := false }
          [10, 30] 40).NextAt = 15) :=
  updateNextAt_complete_iff
    { ChatID := 7, MessageID := 1, Created := 5, NextAt := 15, Complete := false }
    [10, 30] 40

/-- C7: for an update carrying a message and a configuration whose interval list is not
empty, `handleUpdate` returns, and it pushes onto the channel exactly when the chat id
is in `allowedChats`, the text is not empty and `SaveNote` returned no error: in that
case exactly the record `{chat id, message id, now, now + intervals[0], false}` is
appended, and otherwise the channel is left as it was. -/
theorem handleUpdate_pushes_iff (U : UnicodeTables) (config : Config) (now : Int)
    (id : List Char) (update : Update) (w : World) (m : Message) (d0 : Int)
    (rest : List Int) (hmsg : update.Message = some m)
    (hintervals : config.intervals = d0 :: rest) :
    ∃ w1, handleUpdate U config now id update w = some w1 ∧
      ((m.ChatID ∈ config.allowedChats ∧ m.Text ≠ [] ∧
          (SaveNote U id w.fs m.Text).2.2 = none) →
        w1.messagesToSchedule = w.messagesToSchedule ++
          [{ ChatID := m.ChatID, MessageID := m.MessageID, Created := now,
             NextAt := now + d0, Complete := false }]) ∧
      (¬ (m.ChatID ∈ config.allowedChats ∧ m.Text ≠ [] ∧
          (SaveNote U id w.fs m.Text).2.2 = none) →
        w1.messagesToSchedule = w.messagesToSchedule) := by
  by_cases hallowed : m.ChatID ∈ config.allowedChats
  · by_cases htext : m.Text = []
    · refine ⟨_, by simp [handleUpdate, hmsg, hallowed, htext]; rfl, ?_, ?_⟩
      · intro h; exact absurd htext h.2.1
      · intro _; rfl
    · by_cases hsave : (SaveNote U id w.fs m.Text).2.2 = none
      · refine ⟨_, by simp [handleUpdate, hmsg, hallowed, htext, hsave, hintervals]; rfl,
          ?_, ?_⟩
        · intro _; rfl
        · intro h; exact absurd ⟨hallowed, htext, hsave⟩ h
      · refine ⟨_, by simp [handleUpdate, hmsg, hallowed, htext, hsave]; rfl, ?_, ?_⟩
        · intro h; exact absurd h.2.2 hsave
        · intro _; rfl
  · refine ⟨_, by simp [handleUpdate, hmsg, hallowed]; rfl, ?_, ?_⟩
    · intro h; exact absurd h.1 hallowed
    · intro _; rfl

/-- C7 at a concrete input: chat 7 is allowed, the text is `hi`, every filesystem call
succeeds. -/
theorem handleUpdate_pushes_iff_witness :
    (Update.mk (some { ChatID := 7, MessageID := 3, Text := ['h', 'i'] })).Message =
      some { ChatID := 7, MessageID := 3, Text := ['h', 'i'] } ∧
    (Config.mk [10, 30] [7]).intervals = 10 :: [30] ∧
    ∃ w1, handleUpdate tablesExcerpt (Config.mk [10, 30] [7]) 100 ['t']
        (Update.mk (some { ChatID := 7, MessageID := 3, Text := ['h', 'i'] }))
        World.empty = some w1 ∧
      (((7 : Int) ∈ [(7 : Int)] ∧ ['h', 'i'] ≠ [] ∧
          (SaveNote tablesExcerpt ['t'] World.empty.fs ['h', 'i']).2.2 = none) →
        w1.messagesToSchedule = World.empty.messagesToSchedule ++
          [{ ChatID := 7, MessageID := 3, Created := 100, NextAt := 100 + 10,
             Complete := false }]) ∧
      (¬ ((7 : Int) ∈ [(7 : Int)] ∧ ['h', 'i'] ≠ [] ∧
          (SaveNote tablesExcerpt ['t'] World.empty.fs ['h', 'i']).2.2 = none) →
        w1.messagesToSchedule = World.empty.messagesToSchedule) :=
  ⟨rfl, rfl,
    handleUpdate_pushes_iff tablesExcerpt (Config.mk [10, 30] [7]) 100 ['t']
      (Update.mk (some { ChatID := 7, MessageID := 3, Text := ['h', 'i'] }))
      World.empty { ChatID := 7, MessageID := 3, Text := ['h', 'i'] } 10 [30] rfl rfl⟩

/-- C8: for an update whose chat id is not in `allowedChats`, whatever its text,
`handleUpdate` returns without calling `SaveNote` (the call log and the filesystem are
unchanged), pushes nothing onto the channel, and sends one message, to that chat,
carrying the rejection text. -/
theorem handleUpdate_unauthorized (U : UnicodeTables) (config : Config) (now : Int)
    (id : List Char) (update : Update) (w : World) (m : Message)
    (hmsg : update.Message = some m) (hchat : m.ChatID ∉ config.allowedChats) :
    ∃ w1, handleUpdate U config now id update w = some w1 ∧
      w1.saveNoteCalls = w.saveNoteCalls ∧ w1.fs = w.fs ∧
      w1.messagesToSchedule = w.messagesToSchedule ∧
      w1.sent = w.sent ++
        [{ ChatID := m.ChatID, Text := textNotAllowed, ReplyToMessageID := 0 }] :=
  ⟨{ w with sent := w.sent ++
        [{ ChatID := m.ChatID, Text := textNotAllowed, ReplyToMessageID := 0 }] },
    by simp [handleUpdate, hmsg, hchat, NewMessage], rfl, rfl, rfl, rfl⟩

/-- C8 at a concrete input: chat 8 writes while only chat 7 is allowed. -/
theorem handleUpdate_unauthorized_witness :
    (Update.mk (some { ChatID := 8, MessageID := 3, Text := ['h', 'i'] })).Message =
      some { ChatID := 8, MessageID := 3, Text := ['h', 'i'] } ∧
    (8 : Int) ∉ (Config.mk [10, 30] [7]).allowedChats ∧
    ∃ w1, handleUpdate tablesExcerpt (Config.mk [10, 30] [7]) 100 ['t']
        (Update.mk (some { ChatID := 8, MessageID := 3, Text := ['h', 'i'] }))
        World.empty = some w1 ∧
      w1.saveNoteCalls = World.empty.saveNoteCalls ∧ w1.fs = World.empty.fs ∧
      w1.messagesToSchedule = World.empty.messagesToSchedule ∧
      w1.sent = World.empty.sent ++
        [{ ChatID := 8, Text := textNotAllowed, ReplyToMessageID := 0 }] :=
  ⟨rfl, by decide,
    handleUpdate_unauthorized tablesExcerpt (Config.mk [10, 30] [7]) 100 ['t']
      (Update.mk (some { ChatID := 8, MessageID := 3, Text := ['h', 'i'] }))
      World.empty { ChatID := 8, MessageID := 3, Text := ['h', 'i'] } rfl (by decide)⟩

/-- C9: every character of `sanitizeName h` is a letter obtained by lower-casing a
character of `h`, a number, a space or a hyphen, and none of the characters
`: * ? " > < / \ |` and space occurs in it; on the two headings of the test the
results are `test-note` and `тестовая-заметка`. -/
theorem sanitizeName_alphabet :
    (∀ (U : UnicodeTables) (h : List Char) (c : Char), c ∈ sanitizeName U h →
      ((isLetter U c = true ∧ ∃ c0 ∈ h, ToLower U c0 = c) ∨ isNumber U c = true ∨
        c = ' ' ∨ c = '-') ∧
      c ∉ [':', '*', '?', '"', '>', '<', '/', '\\', '|', ' ']) ∧
    sanitizeName tablesExcerpt "Test note|[]:?*\\\"".toList = "test-note".toList ∧
    sanitizeName tablesExcerpt "Тестовая заметка ✨".toList = "тестовая-заметка".toList := by
  refine ⟨?_, by decide, by decide⟩
  intro U h c hc
  rcases mem_replaceEach _ '-' c _ hc with rfl | ⟨hmem, hforb⟩
  · exact ⟨Or.inr (Or.inr (Or.inr rfl)), by decide⟩
  · have hnot : c ∉ forbidden := by simpa using hforb
    obtain ⟨hin, hclass⟩ := mem_replaceRuns_nil _ c _ _ (mem_Trim _ _ c hmem)
    obtain ⟨c0, hc0, hlow⟩ := List.mem_map.mp hin
    have hbackslash : c ≠ '\\' := by
      rintro rfl
      revert hclass
      simp [nonAlphaNumeric, isLetter, isNumber]
    constructor
    · simp [nonAlphaNumeric] at hclass
      rcases Bool.eq_false_or_eq_true (isLetter U c) with hl | hl
      · exact Or.inl ⟨hl, c0, hc0, hlow⟩
      · rcases Bool.eq_false_or_eq_true (isNumber U c) with hn | hn
        · exact Or.inr (Or.inl hn)
        · exact Or.inr (Or.inr (Or.inl (hclass hl hn)))
    · simp only [forbidden, List.mem_cons, List.mem_singleton, not_or, List.not_mem_nil,
        or_false] at hnot ⊢
      obtain ⟨h1, h2, h3, h4, h5, h6, h7, h8, h9⟩ := hnot
      exact ⟨h1, h2, h3, h4, h5, h6, h7, hbackslash, h8, h9⟩

/-- C10 (the code departs from the claim): for the heading of 31 letters `я` the
sanitized heading is the heading itself, 31 characters long, yet the name keeps only
its first 60 bytes, which are 30 characters: the heading part of the name is neither
the sanitized heading nor its first 60 characters. -/
theorem prepareNoteName_cuts_bytes :
    sanitizeName tablesExcerpt (List.replicate 31 'я') = List.replicate 31 'я' ∧
    (List.replicate 31 'я').take 60 = List.replicate 31 'я' ∧
    prepareNoteName tablesExcerpt "2024-05-06T07-08-09".toList (List.replicate 31 'я') =
      utf8Encode ("2024-05-06T07-08-09".toList ++ ['_'] ++ List.replicate 30 'я' ++
        ".md".toList) ∧
    prepareNoteName tablesExcerpt "2024-05-06T07-08-09".toList (List.replicate 31 'я') ≠
      utf8Encode ("2024-05-06T07-08-09".toList ++ ['_'] ++
        (sanitizeName tablesExcerpt (List.replicate 31 'я')).take 60 ++ ".md".toList) := by
  decide

/-! ## Further facts about the sweep -/

theorem Ascending_pairwise :
    ∀ q : List scheduledMessage, Ascending q → q.Pairwise fun a b => a.NextAt ≤ b.NextAt := by
  intro q
  induction q with
  | nil => intro _; exact List.Pairwise.nil
  | cons a rest ih =>
    intro h
    cases rest with
    | nil => exact List.pairwise_singleton _ _
    | cons b rest2 =>
      have hab : a.NextAt ≤ b.NextAt := h.1
      have hrest := ih h.2
      refine List.pairwise_cons.mpr ⟨?_, hrest⟩
      intro x hx
      rcases List.mem_cons.mp hx with rfl | hx1
      · exact hab
      · exact le_trans hab ((List.pairwise_cons.mp hrest).1 x hx1)

theorem takeWhile_due_eq_filter (now : Int) :
    ∀ q : List scheduledMessage, (q.Pairwise fun a b => a.NextAt ≤ b.NextAt) →
      (q.takeWhile fun m => shouldBeSent m now) = q.filter fun m => shouldBeSent m now := by
  intro q
  induction q with
  | nil => intro _; rfl
  | cons a rest ih =>
    intro h
    have hrest := ih (List.pairwise_cons.mp h).2
    by_cases ha : shouldBeSent a now = true
    · rw [List.takeWhile_cons, List.filter_cons, ha]
      simp only [if_true]
      rw [hrest]
    · rw [List.takeWhile_cons, List.filter_cons]
      simp only [ha, Bool.false_eq_true, if_false]
      symm
      rw [List.filter_eq_nil_iff]
      intro x hx
      have hle := (List.pairwise_cons.mp h).1 x hx
      simp only [shouldBeSent, decide_eq_true_eq] at ha ⊢
      omega

theorem tick_resends (config : Config) (now : Int) (sendOk : Nat → Bool)
    (pre post : List scheduledMessage) (m : scheduledMessage)
    (hpre : ∀ x ∈ pre, shouldBeSent x now = true) (hm : shouldBeSent m now = true)
    (hstill : shouldBeSent (sendReminder config now (sendOk pre.length) m).2 now = true)
    (later : Int) (sendOk2 : Nat → Bool) (hlater : now ≤ later) :
    reminderFor later (sendReminder config now (sendOk pre.length) m).2 ∈
      (tick config later sendOk2 (tick config now sendOk (pre ++ m :: post)).1).2 := by
  have hmem := tick_mem config now sendOk pre post m hpre hm
  have hdue : shouldBeSent (sendReminder config now (sendOk pre.length) m).2 later = true := by
    simp only [shouldBeSent, decide_eq_true_eq] at hstill ⊢
    omega
  rw [tick_sent]
  apply List.mem_map_of_mem
  by_cases hcount :
      0 < (sweepLoop config now sendOk 0 (pre ++ m :: post) 0).sentMessagesCount
  · have hq : (tick config now sendOk (pre ++ m :: post)).1 =
        SortFunc cmpNextAt (sweepLoop config now sendOk 0 (pre ++ m :: post) 0).allReminders := by
      simp [tick, hcount]
    rw [hq] at hmem ⊢
    exact due_mem_takeWhile later _ hdue _ (SortFunc_sorted _) hmem
  · cases pre with
    | nil =>
      have hq : (tick config now sendOk ([] ++ m :: post)).1 =
          (sendReminder config now (sendOk 0) m).2 ::
            (sweepLoop config now sendOk 1 post 0).allReminders := by
        have hc : ¬ 0 < (sweepLoop config now sendOk 1 post 0).sentMessagesCount := by
          simpa [sweepLoop, hm] using hcount
        simp [tick, sweepLoop, hm, hc]
      rw [hq, List.takeWhile_cons]
      simp only [List.length_nil] at hdue ⊢
      rw [hdue]
      exact List.mem_cons_self _ _
    | cons a rest =>
      exfalso
      apply hcount
      have ha : shouldBeSent a now = true := hpre a (List.mem_cons_self _ _)
      cases rest with
      | nil => exact sweepLoop_count_pos config now sendOk a m post 0 ha hm
      | cons b rest2 =>
        have hb : shouldBeSent b now = true :=
          hpre b (List.mem_cons_of_mem _ (List.mem_cons_self _ _))
        exact sweepLoop_count_pos config now sendOk a b (rest2 ++ m :: post) 0 ha hb

/-- C11 (the code departs from the claim): with intervals `[1]`, a record created at 0 is
inserted and the tick at instant 5 marks it complete; the queue reached holds it with
`Complete = true`, and the tick at instant 6 hands a reminder for it to `bot.Send`. -/
theorem tick_sends_completed_example :
    (scheduleReminders { intervals := [1], allowedChats := [7] } Scheduler.init
        [Event.message
          { ChatID := 7, MessageID := 1, Created := 0, NextAt := 1, Complete := false },
         Event.tick 5 (fun _ => true)]).map (fun st => st.allReminders) =
      some [{ ChatID := 7, MessageID := 1, Created := 0, NextAt := 1, Complete := true }] ∧
    (tick { intervals := [1], allowedChats := [7] } 6 (fun _ => true)
        [{ ChatID := 7, MessageID := 1, Created := 0, NextAt := 1, Complete := true }]).2 =
      [{ ChatID := 7, Text := MessageText.reminder 6, ReplyToMessageID := 1 }] := by
  decide

/-- C11, the departure in general: the sweep does not look at the `Complete` flag. A
record that the walk reaches, whose send succeeds and which `updateNextAt` marks
complete, keeps its stale `NextAt`, and the next tick on the queue left behind, at any
instant not before the first one, hands a reminder for this completed record to
`bot.Send` again. -/
theorem tick_sends_completed (config : Config) (now : Int) (sendOk : Nat → Bool)
    (pre post : List scheduledMessage) (m : scheduledMessage)
    (hpre : ∀ x ∈ pre, shouldBeSent x now = true) (hm : shouldBeSent m now = true)
    (hok : sendOk pre.length = true)
    (hdone : (updateNextAt m config.intervals now).Complete = true) :
    ∀ (later : Int) (sendOk2 : Nat → Bool), now ≤ later →
      reminderFor later { m with Complete := true } ∈
        (tick config later sendOk2 (tick config now sendOk (pre ++ m :: post)).1).2 := by
  have hsend : (sendReminder config now (sendOk pre.length) m).2 =
      { m with Complete := true } := by
    simp only [sendReminder, hok, Bool.not_true, Bool.false_eq_true, if_false]
    exact updateNextAt_complete m config.intervals now hdone
  intro later sendOk2 hlater
  have h := tick_resends config now sendOk pre post m hpre hm (by rw [hsend]; exact hm)
    later sendOk2 hlater
  rw [hsend] at h
  exact h

/-- C11, the departure in general, at a concrete input: one record created at 0,
intervals `[1]`, tick at instant 5 with the send succeeding. -/
theorem tick_sends_completed_witness :
    ∀ (later : Int) (sendOk2 : Nat → Bool), 5 ≤ later →
      reminderFor later
          { ChatID := 7, MessageID := 1, Created := 0, NextAt := 1, Complete := true } ∈
        (tick { intervals := [1], allowedChats := [7] } later sendOk2
          (tick { intervals := [1], allowedChats := [7] } 5 (fun _ => true)
            ([] ++ { ChatID := 7, MessageID := 1, Created := 0, NextAt := 1, Complete := false }
              :: [])).1).2 :=
  tick_sends_completed { intervals := [1], allowedChats := [7] } 5 (fun _ => true) [] []
    { ChatID := 7, MessageID := 1, Created := 0, NextAt := 1, Complete := false }
    (by decide) (by decide) (by decide) (by decide)

/-- C12: on a queue in ascending order of `NextAt`, whatever the outcomes of the sends,
the messages a tick hands to `bot.Send` are, in queue order, one message for each
record whose `NextAt` is strictly before `now` and none for any other record; each
goes to the record's `ChatID` with `ReplyToMessageID` equal to the record's `MessageID`.
In particular a queue of one record that is due produces exactly one send. -/
theorem tick_sends_exactly_due (config : Config) (now : Int) (sendOk : Nat → Bool)
    (q : List scheduledMessage) (h : Ascending q) :
    (tick config now sendOk q).2 =
      (q.filter fun m => decide (m.NextAt < now)).map (fun m =>
        { ChatID := m.ChatID, Text := MessageText.reminder (Sub now m.Created),
          ReplyToMessageID := m.MessageID }) ∧
    ∀ m : scheduledMessage, m.NextAt < now →
      (tick config now sendOk [m]).2 =
        [{ ChatID := m.ChatID, Text := MessageText.reminder (Sub now m.Created),
           ReplyToMessageID := m.MessageID }] := by
  constructor
  · rw [tick_sent, takeWhile_due_eq_filter now q (Ascending_pairwise q h)]
    rfl
  · intro m hm
    have hdue : shouldBeSent m now = true := by simpa [shouldBeSent] using hm
    rw [tick_sent]
    simp [List.takeWhile_cons, hdue, reminderFor]

/-- C12 at a concrete input: the ascending queue with next-fire instants 1, 5 and 9 at
instant 6. -/
theorem tick_sends_exactly_due_witness :
    Ascending
      [{ ChatID := 7, MessageID := 1, Created := 0, NextAt := 1, Complete := false },
       { ChatID := 8, MessageID := 2, Created := 0, NextAt := 5, Complete := false },
       { ChatID := 9, MessageID := 3, Created := 0, NextAt := 9, Complete := false }] ∧
    (tick { intervals := [10], allowedChats := [7] } 6 (fun _ => true)
      [{ ChatID := 7, MessageID := 1, Created := 0, NextAt := 1, Complete := false },
       { ChatID := 8, MessageID := 2, Created := 0, NextAt := 5, Complete := false },
       { ChatID := 9, MessageID := 3, Created := 0, NextAt := 9, Complete := false }]).2 =
      [{ ChatID := 7, Text := MessageText.reminder 6, ReplyToMessageID := 1 },
       { ChatID := 8, Text := MessageText.reminder 6, ReplyToMessageID := 2 }] :=
  ⟨by decide,
    (tick_sends_exactly_due { intervals := [10], allowedChats := [7] } 6 (fun _ => true)
      [{ ChatID := 7, MessageID := 1, Created := 0, NextAt := 1, Complete := false },
       { ChatID := 8, MessageID := 2, Created := 0, NextAt := 5, Complete := false },
       { ChatID := 9, MessageID := 3, Created := 0, NextAt := 9, Complete := false }]
      (by decide)).1⟩

/-- C13, counterexample: chat 8 is not allowed and sends message 3; the single reply
goes to chat 8 with `ReplyToMessageID = 0`, not 3. The same happens for an empty text
from the allowed chat 7. -/
theorem handleUpdate_reply_not_threaded_example :
    (handleUpdate tablesExcerpt (Config.mk [10, 30] [7]) 100 ['t']
        (Update.mk (some { ChatID := 8, MessageID := 3, Text := ['h', 'i'] }))
        World.empty).map (fun w => w.sent) =
      some [{ ChatID := 8, Text := textNotAllowed, ReplyToMessageID := 0 }] ∧
    (handleUpdate tablesExcerpt (Config.mk [10, 30] [7]) 100 ['t']
        (Update.mk (some { ChatID := 7, MessageID := 3, Text := [] }))
        World.empty).map (fun w => w.sent) =
      some [{ ChatID := 7, Text := textEmpty, ReplyToMessageID := 0 }] := by
  decide

/-- C13, amended: for an update carrying a message and a configuration whose interval
list is not empty, every branch of `handleUpdate` sends exactly one message, to the
originating chat. Its `ReplyToMessageID` is the id of the original message in the two
branches that call `SaveNote` (failed and successful save) and 0 in the branches for
a chat that is not allowed and for an empty text. -/
theorem handleUpdate_replies_once (U : UnicodeTables) (config : Config) (now : Int)
    (id : List Char) (update : Update) (w : World) (m : Message) (d0 : Int)
    (rest : List Int) (hmsg : update.Message = some m)
    (hintervals : config.intervals = d0 :: rest) :
    ∃ w1 reply, handleUpdate U config now id update w = some w1 ∧
      w1.sent = w.sent ++ [reply] ∧ reply.ChatID = m.ChatID ∧
      reply.ReplyToMessageID =
        (if m.ChatID ∈ config.allowedChats ∧ m.Text ≠ [] then m.MessageID else 0) := by
  by_cases hallowed : m.ChatID ∈ config.allowedChats
  · by_cases htext : m.Text = []
    · exact ⟨_, ⟨m.ChatID, textEmpty, 0⟩,
        by simp [handleUpdate, hmsg, hallowed, htext, NewMessage]; rfl,
        by rfl, by rfl, by simp [htext]⟩
    · by_cases hsave : (SaveNote U id w.fs m.Text).2.2 = none
      · exact ⟨_, ⟨m.ChatID, textSaved, m.MessageID⟩,
          by simp [handleUpdate, hmsg, hallowed, htext, hsave, hintervals, NewMessage]; rfl,
          by rfl, by rfl, by simp [hallowed, htext]⟩
      · exact ⟨_, ⟨m.ChatID, textSaveFailed, m.MessageID⟩,
          by simp [handleUpdate, hmsg, hallowed, htext, hsave, NewMessage]; rfl,
          by rfl, by rfl, by simp [hallowed, htext]⟩
  · exact ⟨_, ⟨m.ChatID, textNotAllowed, 0⟩,
      by simp [handleUpdate, hmsg, hallowed, NewMessage]; rfl,
      by rfl, by rfl, by simp [hallowed]⟩

/-- C13, amended, at a concrete input: chat 7 is allowed, the text is `hi`, every
filesystem call succeeds. -/
theorem handleUpdate_replies_once_witness :
    ∃ w1 reply, handleUpdate tablesExcerpt (Config.mk [10, 30] [7]) 100 ['t']
        (Update.mk (some { ChatID := 7, MessageID := 3, Text := ['h', 'i'] }))
        World.empty = some w1 ∧
      w1.sent = World.empty.sent ++ [reply] ∧ reply.ChatID = 7 ∧
      reply.ReplyToMessageID =
        (if (7 : Int) ∈ (Config.mk [10, 30] [7]).allowedChats ∧ ['h', 'i'] ≠ [] then 3
          else 0) :=
  handleUpdate_replies_once tablesExcerpt (Config.mk [10, 30] [7]) 100 ['t']
    (Update.mk (some { ChatID := 7, MessageID := 3, Text := ['h', 'i'] }))
    World.empty { ChatID := 7, MessageID := 3, Text := ['h', 'i'] } 10 [30] rfl rfl

/-! ## Facts about the UTF-8 encoding and note names -/

theorem Char_eq_of_toNat_eq {c d : Char} (h : c.toNat = d.toNat) : c = d := by
  rw [← Char.ofNat_toNat c, ← Char.ofNat_toNat d, h]

theorem utf8EncodeChar_append_inj (c d : Char) (l1 l2 : List Nat)
    (h : utf8EncodeChar c ++ l1 = utf8EncodeChar d ++ l2) : c = d ∧ l1 = l2 := by
  have key : c.toNat = d.toNat ∧ l1 = l2 := by
    unfold utf8EncodeChar at h
    simp only [] at h
    split_ifs at h <;>
      simp only [List.cons_append, List.nil_append, List.cons.injEq] at h <;>
      first
        | (exfalso; omega)
        | (constructor; omega; simp_all)
  exact ⟨Char_eq_of_toNat_eq key.1, key.2⟩

theorem utf8EncodeChar_ne_nil (c : Char) : utf8EncodeChar c ≠ [] := by
  unfold utf8EncodeChar
  simp only []
  split_ifs <;> simp

theorem utf8Encode_injective : ∀ s t : List Char, utf8Encode s = utf8Encode t → s = t := by
  intro s
  induction s with
  | nil =>
    intro t h
    cases t with
    | nil => rfl
    | cons d ds =>
      simp only [utf8Encode] at h
      exact absurd (List.append_eq_nil.mp h.symm).1 (utf8EncodeChar_ne_nil d)
  | cons c cs ih =>
    intro t h
    cases t with
    | nil =>
      simp only [utf8Encode] at h
      exact absurd (List.append_eq_nil.mp h).1 (utf8EncodeChar_ne_nil c)
    | cons d ds =>
      simp only [utf8Encode] at h
      obtain ⟨hcd, hrest⟩ := utf8EncodeChar_append_inj c d _ _ h
      rw [hcd, ih ds hrest]

theorem underscore_of_mem_utf8Encode : ∀ s : List Char, 0x5F ∈ utf8Encode s → '_' ∈ s := by
  intro s
  induction s with
  | nil => intro h; cases h
  | cons c cs ih =>
    intro h
    simp only [utf8Encode, List.mem_append] at h
    rcases h with h | h
    · have hc : c.toNat = 0x5F := by
        unfold utf8EncodeChar at h
        simp only [] at h
        split_ifs at h <;> simp at h <;> omega
      have : c = '_' := Char_eq_of_toNat_eq hc
      rw [this]
      exact List.mem_cons_self _ _
    · exact List.mem_cons_of_mem _ (ih h)

theorem underscore_not_mem_sanitizeName (U : UnicodeTables) (h : List Char) :
    '_' ∉ sanitizeName U h := by
  intro hc
  rcases mem_replaceEach _ '-' '_' _ hc with h1 | ⟨hmem, _⟩
  · exact absurd h1 (by decide)
  · have hclass := (mem_replaceRuns_nil _ '_' _ _ (mem_Trim _ _ '_' hmem)).2
    revert hclass
    simp [nonAlphaNumeric, isLetter, isNumber]

theorem take_min_length (l : List Nat) (n : Nat) : l.take (min l.length n) = l.take n := by
  by_cases h : l.length ≤ n
  · rw [Nat.min_eq_left h, List.take_of_length_le h, List.take_of_length_le (le_refl _)]
  · rw [Nat.min_eq_right (by omega)]

/-- C14: in every filesystem state in which the directory creation and the write of the
note's file succeed, `SaveNote x` returns a name and no error, and `LoadNote` of that
name on the filesystem left behind returns the string `x` (its bytes, which no other
text shares) and no error. -/
theorem save_load_roundtrip (U : UnicodeTables) (id : List Char) (fs : FileSystem)
    (x : List Char) (hmkdir : fs.mkdirAllFails = false)
    (hwrite : fs.writeFileFails (utf8Encode storage_dir ++
      prepareNoteName U id (x.takeWhile fun c => decide (c ≠ '\n'))) = false) :
    ∃ name, (SaveNote U id fs x).2 = (name, none) ∧
      LoadNote (SaveNote U id fs x).1 name = (utf8Encode x, none) ∧
      ∀ y : List Char, utf8Encode y = utf8Encode x → y = x := by
  refine ⟨prepareNoteName U id (x.takeWhile fun c => decide (c ≠ '\n')), ?_, ?_,
    fun y hy => utf8Encode_injective y x hy⟩
  · simp only [SaveNote, hmkdir, hwrite, Bool.false_eq_true, if_false]
  · simp only [SaveNote, hmkdir, hwrite, Bool.false_eq_true, if_false, LoadNote,
      FileSystem.write, List.lookup_cons_self]

/-- C14 at a concrete input: the note of the scenario, saved into the empty filesystem. -/
theorem save_load_roundtrip_witness :
    FileSystem.empty.mkdirAllFails = false ∧
    ∃ name, (SaveNote tablesExcerpt "2024-05-06T07-08-09".toList FileSystem.empty
        "Buy milk\nDon't forget".toList).2 = (name, none) ∧
      LoadNote (SaveNote tablesExcerpt "2024-05-06T07-08-09".toList FileSystem.empty
        "Buy milk\nDon't forget".toList).1 name =
          (utf8Encode "Buy milk\nDon't forget".toList, none) ∧
      ∀ y : List Char, utf8Encode y = utf8Encode "Buy milk\nDon't forget".toList →
        y = "Buy milk\nDon't forget".toList :=
  ⟨rfl, save_load_roundtrip tablesExcerpt "2024-05-06T07-08-09".toList FileSystem.empty
    "Buy milk\nDon't forget".toList rfl rfl⟩

/-- C15, counterexample: the headings `A` and `a` are different and, with the same
timestamp, are given the same note name. -/
theorem prepareNoteName_collision_example :
    prepareNoteName tablesExcerpt "2024-05-06T07-08-09".toList ['A'] =
      prepareNoteName tablesExcerpt "2024-05-06T07-08-09".toList ['a'] ∧
    (['A'] : List Char) ≠ ['a'] := by
  decide

/-- Equality of two note names in terms of their parts, for a formatted timestamp
`id1` without underscore: the formatted timestamps are equal and the heading parts,
as `prepareNoteName` builds them, are equal. -/
theorem prepareNoteName_eq_bytes (U : UnicodeTables) (id1 id2 h1 h2 : List Char)
    (hid : '_' ∉ id1) :
    prepareNoteName U id1 h1 = prepareNoteName U id2 h2 ↔
      id1 = id2 ∧
      (utf8Encode (sanitizeName U h1)).take 60 = (utf8Encode (sanitizeName U h2)).take 60 := by
  have hshape : ∀ (i h : List Char), prepareNoteName U i h =
      utf8Encode i ++ 0x5F :: ((utf8Encode (sanitizeName U h)).take 60 ++ [46, 109, 100]) := by
    intro i h
    simp only [prepareNoteName, take_min_length]
    simp [utf8Encode, utf8EncodeChar]
  rw [hshape, hshape]
  have hx : (0x5F : Nat) ∉ utf8Encode id1 := fun hmem =>
    hid (underscore_of_mem_utf8Encode id1 hmem)
  have hz : (0x5F : Nat) ∉ (utf8Encode (sanitizeName U h1)).take 60 ++ [46, 109, 100] := by
    intro hmem
    rcases List.mem_append.mp hmem with h | h
    · exact underscore_not_mem_sanitizeName U h1
        (underscore_of_mem_utf8Encode _ (List.mem_of_mem_take h))
    · simp at h
  rw [List.append_cons_inj_of_not_mem hx hz]
  constructor
  · rintro ⟨hid12, _, hrest⟩
    exact ⟨utf8Encode_injective _ _ hid12, List.append_cancel_right hrest⟩
  · rintro ⟨rfl, hrest⟩
    exact ⟨rfl, rfl, by rw [hrest]⟩

/-- C15, amended: for formatted timestamps `id1`, `id2` of which the first holds no
underscore (the layout `2006-01-02T15-04-05` produces none), if the note names derived
from `(h1, id1)` and `(h2, id2)` are equal then the formatted timestamps are equal; and
for headings whose sanitized forms are short enough not to be cut (at most 60 bytes,
hence at most 60 characters) the names are equal exactly when the formatted timestamps
are equal and `sanitizeName h1 = sanitizeName h2`. The headings themselves need not be
equal. -/
theorem prepareNoteName_collision_iff (U : UnicodeTables) (id1 id2 h1 h2 : List Char)
    (hid : '_' ∉ id1) :
    (prepareNoteName U id1 h1 = prepareNoteName U id2 h2 → id1 = id2) ∧
    ((utf8Encode (sanitizeName U h1)).length ≤ 60 →
      (utf8Encode (sanitizeName U h2)).length ≤ 60 →
      (prepareNoteName U id1 h1 = prepareNoteName U id2 h2 ↔
        id1 = id2 ∧ sanitizeName U h1 = sanitizeName U h2)) := by
  refine ⟨fun h => ((prepareNoteName_eq_bytes U id1 id2 h1 h2 hid).mp h).1, ?_⟩
  intro hlen1 hlen2
  rw [prepareNoteName_eq_bytes U id1 id2 h1 h2 hid, List.take_of_length_le hlen1,
    List.take_of_length_le hlen2]
  constructor
  · rintro ⟨hid12, hbytes⟩
    exact ⟨hid12, utf8Encode_injective _ _ hbytes⟩
  · rintro ⟨hid12, hsan⟩
    exact ⟨hid12, by rw [hsan]⟩

/-- C15, amended, at a concrete input: the headings `A` and `a` with one timestamp. -/
theorem prepareNoteName_collision_iff_witness :
    '_' ∉ "2024-05-06T07-08-09".toList ∧
    (utf8Encode (sanitizeName tablesExcerpt ['A'])).length ≤ 60 ∧
    (utf8Encode (sanitizeName tablesExcerpt ['a'])).length ≤ 60 ∧
    sanitizeName tablesExcerpt ['A'] = sanitizeName tablesExcerpt ['a'] ∧
    (prepareNoteName tablesExcerpt "2024-05-06T07-08-09".toList ['A'] =
        prepareNoteName tablesExcerpt "2024-05-06T07-08-09".toList ['a'] →
      "2024-05-06T07-08-09".toList = "2024-05-06T07-08-09".toList) ∧
    ((utf8Encode (sanitizeName tablesExcerpt ['A'])).length ≤ 60 →
      (utf8Encode (sanitizeName tablesExcerpt ['a'])).length ≤ 60 →
      (prepareNoteName tablesExcerpt "2024-05-06T07-08-09".toList ['A'] =
          prepareNoteName tablesExcerpt "2024-05-06T07-08-09".toList ['a'] ↔
        "2024-05-06T07-08-09".toList = "2024-05-06T07-08-09".toList ∧
        sanitizeName tablesExcerpt ['A'] = sanitizeName tablesExcerpt ['a'])) :=
  ⟨by decide, by decide, by decide, by decide,
    prepareNoteName_collision_iff tablesExcerpt "2024-05-06T07-08-09".toList
      "2024-05-06T07-08-09".toList ['A'] ['a'] (by decide)⟩

/-! ## Facts about the records `handleUpdate` pushes -/

theorem handleUpdate_push_cases (U : UnicodeTables) (config : Config) (now : Int)
    (id : List Char) (update : Update) (w : World) (m : Message) (d0 : Int)
    (rest : List Int) (hmsg : update.Message = some m)
    (hintervals : config.intervals = d0 :: rest) :
    ∃ w1, handleUpdate U config now id update w = some w1 ∧
      ((m.ChatID ∈ config.allowedChats ∧ m.Text ≠ [] ∧
          (SaveNote U id w.fs m.Text).2.2 = none) →
        w1.messagesToSchedule = w.messagesToSchedule ++
          [{ ChatID := m.ChatID, MessageID := m.MessageID, Created := now,
             NextAt := now + d0, Complete := false }]) ∧
      (¬ (m.ChatID ∈ config.allowedChats ∧ m.Text ≠ [] ∧
          (SaveNote U id w.fs m.Text).2.2 = none) →
        w1.messagesToSchedule = w.messagesToSchedule) := by
  by_cases hallowed : m.ChatID ∈ config.allowedChats
  · by_cases htext : m.Text = []
    · exact ⟨_, by simp [handleUpdate, hmsg, hallowed, htext]; rfl,
        fun h => absurd htext h.2.1, fun _ => by rfl⟩
    · by_cases hsave : (SaveNote U id w.fs m.Text).2.2 = none
      · exact ⟨_, by simp [handleUpdate, hmsg, hallowed, htext, hsave, hintervals]; rfl,
          fun _ => by rfl, fun h => absurd ⟨hallowed, htext, hsave⟩ h⟩
      · exact ⟨_, by simp [handleUpdate, hmsg, hallowed, htext, hsave]; rfl,
          fun h => absurd h.2.2 hsave, fun _ => by rfl⟩
  · exact ⟨_, by simp [handleUpdate, hmsg, hallowed]; rfl,
      fun h => absurd h.1 hallowed, fun _ => by rfl⟩

/-- C16: `shouldBeSent` is true exactly when `NextAt` is strictly before `now`; so a
record is due at every instant later than its `NextAt` and is not due at the instant
`NextAt` itself. -/
theorem shouldBeSent_iff (msg : scheduledMessage) (now : Int) :
    (shouldBeSent msg now = true ↔ msg.NextAt < now) ∧
    (∀ t : Int, msg.NextAt < t → shouldBeSent msg t = true) ∧
    shouldBeSent msg msg.NextAt = false := by
  refine ⟨by simp [shouldBeSent], fun t ht => by simpa [shouldBeSent] using ht,
    by simp [shouldBeSent]⟩

/-- C17: if `updateNextAt` at `now` leaves `Complete = false`, then it has chosen an
interval `N` of the list, `NextAt` is `Created + N`, and the record is not due at `now`
nor at any instant not after `Created + N`. -/
theorem updateNextAt_not_due (msg : scheduledMessage) (intervals : List Int) (now : Int)
    (h : (updateNextAt msg intervals now).Complete = false) :
    ∃ N ∈ intervals, (updateNextAt msg intervals now).NextAt = msg.Created + N ∧
      shouldBeSent (updateNextAt msg intervals now) now = false ∧
      ∀ t : Int, t ≤ msg.Created + N →
        shouldBeSent (updateNextAt msg intervals now) t = false := by
  by_cases hex : ∃ d ∈ intervals, msg.Created + d > now
  · obtain ⟨pre, N, post, hsplit, _, hN, hloop⟩ := updateNextAtLoop_some msg now intervals hex
    have hnext : (updateNextAt msg intervals now).NextAt = msg.Created + N := by
      simp [updateNextAt, hloop]
    refine ⟨N, by simp [hsplit], hnext, ?_, ?_⟩
    · simp only [shouldBeSent, hnext, decide_eq_false_iff_not]
      omega
    · intro t ht
      simp only [shouldBeSent, hnext, decide_eq_false_iff_not]
      omega
  · have hall : ∀ d ∈ intervals, ¬ msg.Created + d > now := fun d hd hgt => hex ⟨d, hd, hgt⟩
    simp [updateNextAt, updateNextAtLoop_none msg now intervals hall] at h

/-- C17 at a concrete input, the one of the test: created and due at 0, one interval of
10 seconds, advanced at instant 1. -/
theorem updateNextAt_not_due_witness :
    ∃ N ∈ ([10000000000] : List Int),
      (updateNextAt
          { ChatID := 0, MessageID := 0, Created := 0, NextAt := 0, Complete := false }
          [10000000000] 1).NextAt = 0 + N ∧
      shouldBeSent (updateNextAt
          { ChatID := 0, MessageID := 0, Created := 0, NextAt := 0, Complete := false }
          [10000000000] 1) 1 = false ∧
      ∀ t : Int, t ≤ 0 + N →
        shouldBeSent (updateNextAt
          { ChatID := 0, MessageID := 0, Created := 0, NextAt := 0, Complete := false }
          [10000000000] 1) t = false :=
  updateNextAt_not_due
    { ChatID := 0, MessageID := 0, Created := 0, NextAt := 0, Complete := false }
    [10000000000] 1 (by decide)

/-- C18: for a configuration whose intervals are all non-negative, every record that
`handleUpdate` pushes onto the channel has `NextAt` not before `Created`, and
`updateNextAt` preserves this: if `NextAt` is not before `Created` before the call, it
is not before `Created` after it, for every `now`. -/
theorem nextAt_not_before_created (U : UnicodeTables) (config : Config)
    (hnonneg : ∀ d ∈ config.intervals, 0 ≤ d) :
    (∀ (now : Int) (id : List Char) (update : Update) (w w1 : World),
      handleUpdate U config now id update w = some w1 →
      w1.messagesToSchedule = w.messagesToSchedule ∨
      ∃ r : scheduledMessage, w1.messagesToSchedule = w.messagesToSchedule ++ [r] ∧
        r.Created = now ∧ r.Created ≤ r.NextAt) ∧
    (∀ (msg : scheduledMessage) (now : Int), msg.Created ≤ msg.NextAt →
      (updateNextAt msg config.intervals now).Created ≤
        (updateNextAt msg config.intervals now).NextAt) := by
  constructor
  · intro now id update w w1 hrun
    cases hmsg : update.Message with
    | none =>
      simp [handleUpdate, hmsg] at hrun
      exact Or.inl (by rw [← hrun])
    | some m =>
      cases hint : config.intervals with
      | nil =>
        by_cases hpush : m.ChatID ∈ config.allowedChats ∧ m.Text ≠ [] ∧
            (SaveNote U id w.fs m.Text).2.2 = none
        · simp [handleUpdate, hmsg, hpush.1, hpush.2.1, hpush.2.2, hint] at hrun
        · left
          by_cases hallowed : m.ChatID ∈ config.allowedChats
          · by_cases htext : m.Text = []
            · simp [handleUpdate, hmsg, hallowed, htext] at hrun
              rw [← hrun]
            · have hsave : ¬ (SaveNote U id w.fs m.Text).2.2 = none :=
                fun hs => hpush ⟨hallowed, htext, hs⟩
              simp [handleUpdate, hmsg, hallowed, htext, hsave] at hrun
              rw [← hrun]
          · simp [handleUpdate, hmsg, hallowed] at hrun
            rw [← hrun]
      | cons d0 rest =>
        obtain ⟨w2, hw2, hyes, hno⟩ :=
          handleUpdate_push_cases U config now id update w m d0 rest hmsg hint
        have hw : w2 = w1 := Option.some.inj (hw2.symm.trans hrun)
        subst hw
        by_cases hpush : m.ChatID ∈ config.allowedChats ∧ m.Text ≠ [] ∧
            (SaveNote U id w.fs m.Text).2.2 = none
        · right
          refine ⟨_, hyes hpush, rfl, ?_⟩
          have h0 : 0 ≤ d0 := hnonneg d0 (by simp [hint])
          show now ≤ now + d0
          omega
        · exact Or.inl (hno hpush)
  · intro msg now hinv
    by_cases hex : ∃ d ∈ config.intervals, msg.Created + d > now
    · obtain ⟨pre, N, post, hsplit, _, _, hloop⟩ :=
        updateNextAtLoop_some msg now config.intervals hex
      have h0 : 0 ≤ N := hnonneg N (by simp [hsplit])
      simp only [updateNextAt, hloop]
      omega
    · have hall : ∀ d ∈ config.intervals, ¬ msg.Created + d > now :=
        fun d hd hgt => hex ⟨d, hd, hgt⟩
      simp only [updateNextAt, updateNextAtLoop_none msg now config.intervals hall]
      exact hinv

/-- C18 at a concrete input: the intervals 10 and 30. -/
theorem nextAt_not_before_created_witness :
    (∀ d ∈ (Config.mk [10, 30] [7]).intervals, 0 ≤ d) ∧
    (∀ (now : Int) (id : List Char) (update : Update) (w w1 : World),
      handleUpdate tablesExcerpt (Config.mk [10, 30] [7]) now id update w = some w1 →
      w1.messagesToSchedule = w.messagesToSchedule ∨
      ∃ r : scheduledMessage, w1.messagesToSchedule = w.messagesToSchedule ++ [r] ∧
        r.Created = now ∧ r.Created ≤ r.NextAt) ∧
    (∀ (msg : scheduledMessage) (now : Int), msg.Created ≤ msg.NextAt →
      (updateNextAt msg (Config.mk [10, 30] [7]).intervals now).Created ≤
        (updateNextAt msg (Config.mk [10, 30] [7]).intervals now).NextAt) :=
  ⟨by decide, nextAt_not_before_created tablesExcerpt (Config.mk [10, 30] [7]) (by decide)⟩

/-! ## Correctness of the search on a descending slice -/

theorem Descending_pairwise :
    ∀ q : List scheduledMessage, Descending q → q.Pairwise fun a b => b.NextAt ≤ a.NextAt := by
  intro q
  induction q with
  | nil => intro _; exact List.Pairwise.nil
  | cons a rest ih =>
    intro h
    cases rest with
    | nil => exact List.pairwise_singleton _ _
    | cons b rest2 =>
      have hab : b.NextAt ≤ a.NextAt := h.1
      have hrest := ih h.2
      refine List.pairwise_cons.mpr ⟨?_, hrest⟩
      intro x hx
      rcases List.mem_cons.mp hx with rfl | hx1
      · exact hab
      · exact le_trans ((List.pairwise_cons.mp hrest).1 x hx1) hab

theorem Descending_of_pairwise :
    ∀ q : List scheduledMessage, (q.Pairwise fun a b => b.NextAt ≤ a.NextAt) → Descending q := by
  intro q
  induction q with
  | nil => intro _; trivial
  | cons a rest ih =>
    intro h
    cases rest with
    | nil => trivial
    | cons b rest2 =>
      exact ⟨(List.pairwise_cons.mp h).1 b (List.mem_cons_self _ _),
        ih (List.pairwise_cons.mp h).2⟩

theorem searchLoop_spec (f : Nat → Option Bool) (n : Nat)
    (hf : ∀ h, h < n → (f h).isSome = true)
    (hmono : ∀ a b, a ≤ b → b < n → f a = some true → f b = some true) :
    ∀ fuel i j, i ≤ j → j ≤ n → j - i ≤ fuel →
      (∀ k, k < i → f k = some false) → (∀ k, j ≤ k → k < n → f k = some true) →
      ∃ r, searchLoop f fuel i j = some r ∧ r ≤ n ∧
        (∀ k, k < r → f k = some false) ∧ (∀ k, r ≤ k → k < n → f k = some true) := by
  intro fuel
  induction fuel with
  | zero =>
    intro i j hij hjn hfuel hlo hhi
    have hnot : ¬ i < j := by omega
    have heq : i = j := by omega
    subst heq
    exact ⟨i, by simp [searchLoop], hjn, hlo, hhi⟩
  | succ fuel ih =>
    intro i j hij hjn hfuel hlo hhi
    by_cases hlt : i < j
    · have hmid1 : i ≤ (i + j) / 2 := by omega
      have hmid2 : (i + j) / 2 < j := by omega
      have hsome := hf ((i + j) / 2) (by omega)
      cases hfh : f ((i + j) / 2) with
      | none => simp [hfh] at hsome
      | some b =>
        cases b with
        | false =>
          have hlo2 : ∀ k, k < (i + j) / 2 + 1 → f k = some false := by
            intro k hk
            by_cases hki : k < i
            · exact hlo k hki
            · have hk1 := hf k (by omega)
              cases hfk : f k with
              | none => simp [hfk] at hk1
              | some c =>
                cases c with
                | false => rfl
                | true =>
                  have := hmono k ((i + j) / 2) (by omega) (by omega) hfk
                  rw [hfh] at this
                  cases this
          obtain ⟨r, hr, hrn, h1, h2⟩ :=
            ih ((i + j) / 2 + 1) j (by omega) hjn (by omega) hlo2 hhi
          exact ⟨r, by simp [searchLoop, hlt, hfh, hr], hrn, h1, h2⟩
        | true =>
          have hhi2 : ∀ k, (i + j) / 2 ≤ k → k < n → f k = some true :=
            fun k hk hkn => hmono ((i + j) / 2) k hk hkn hfh
          obtain ⟨r, hr, hrn, h1, h2⟩ :=
            ih i ((i + j) / 2) hmid1 (by omega) (by omega) hlo hhi2
          exact ⟨r, by simp [searchLoop, hlt, hfh, hr], hrn, h1, h2⟩
    · have heq : i = j := by omega
      subst heq
      exact ⟨i, by simp [searchLoop], hjn, hlo, hhi⟩

theorem insertPred_eq (ss : List scheduledMessage) (s : scheduledMessage) (k : Nat)
    (hk : k < ss.length) :
    insertPred ss s k = some (decide (s.NextAt > ss[k].NextAt)) := by
  simp [insertPred, List.getElem?_eq_getElem hk]

theorem insertPred_mono (ss : List scheduledMessage) (s : scheduledMessage)
    (h : Descending ss) (a b : Nat) (hab : a ≤ b) (hb : b < ss.length)
    (ha : insertPred ss s a = some true) : insertPred ss s b = some true := by
  have hlen : a < ss.length := by omega
  rw [insertPred_eq ss s a hlen] at ha
  rw [insertPred_eq ss s b hb]
  have hle : ss[b].NextAt ≤ ss[a].NextAt := by
    rcases Nat.lt_or_eq_of_le hab with hlt | heq
    · exact List.pairwise_iff_getElem.mp (Descending_pairwise ss h) a b hlen hb hlt
    · subst heq; exact le_refl _
  simp only [Option.some.injEq, decide_eq_true_eq] at ha ⊢
  omega

theorem insert_descending (ss : List scheduledMessage) (s : scheduledMessage)
    (h : Descending ss) : ∃ r, insert ss s = some r ∧ Descending r := by
  obtain ⟨i, hi, hin, hlo, hhi⟩ :=
    searchLoop_spec (insertPred ss s) ss.length (insertPred_isSome ss s)
      (insertPred_mono ss s h) ss.length 0 ss.length (Nat.zero_le _) (le_refl _) (by omega)
      (fun k hk => absurd hk (Nat.not_lt_zero k)) (fun k hk hkn => absurd hkn (by omega))
  obtain ⟨i2, hi2, _, hins⟩ := insert_total ss s
  have hii : i2 = i := Option.some.inj (hi2.symm.trans hi)
  subst hii
  refine ⟨_, hins, Descending_of_pairwise _ ?_⟩
  have hp := Descending_pairwise ss h
  have hsplit : ss.take i2 ++ ss.drop i2 = ss := List.take_append_drop i2 ss
  rw [← hsplit] at hp
  obtain ⟨hp1, hp2, hp3⟩ := List.pairwise_append.mp hp
  refine List.pairwise_append.mpr ⟨hp1, List.pairwise_cons.mpr ⟨?_, hp2⟩, ?_⟩
  · intro x hx
    obtain ⟨k, hk, rfl⟩ := List.mem_drop_iff_getElem.mp hx
    have := hhi (i2 + k) (by omega) (by omega)
    rw [insertPred_eq ss s (i2 + k) (by omega)] at this
    simp only [Option.some.injEq, decide_eq_true_eq] at this
    omega
  · intro x hx y hy
    rcases List.mem_cons.mp hy with hys | hy1
    · rw [hys]
      obtain ⟨k, hk, rfl⟩ := List.mem_take_iff_getElem.mp hx
      have hk2 : k < i2 := by omega
      have hk3 : k < ss.length := by omega
      have := hlo k hk2
      rw [insertPred_eq ss s k hk3] at this
      simp only [Option.some.injEq, decide_eq_false_iff_not] at this
      omega
    · exact hp3 x hx y hy1

theorem Descending_of_insertPred_mono :
    ∀ q : List scheduledMessage,
      (∀ (s : scheduledMessage) (a b : Nat), a ≤ b → b < q.length →
        insertPred q s a = some true → insertPred q s b = some true) → Descending q := by
  intro q hq
  apply Descending_of_pairwise
  rw [List.pairwise_iff_getElem]
  intro a b ha hb hab
  by_contra hlt
  have h1 : insertPred q q[b] a = some true := by
    rw [insertPred_eq q q[b] a ha]
    simp only [Option.some.injEq, decide_eq_true_eq]
    omega
  have h2 := hq q[b] a b (by omega) hb h1
  rw [insertPred_eq q q[b] b hb] at h2
  simp at h2

/-- C19: for a slice `ss` in descending (non-increasing) order of `NextAt` and any record
`s`, `insert ss s` returns a slice in descending order, and the search predicate
`s.NextAt.After(ss[i].NextAt)` is monotone on `ss` (once true it stays true at larger
indices). Conversely a slice on which the predicate is monotone for every record is in
descending order. -/
theorem insert_preserves_descending (ss : List scheduledMessage) (s : scheduledMessage)
    (h : Descending ss) :
    (∃ r, insert ss s = some r ∧ Descending r) ∧
    (∀ a b : Nat, a ≤ b → b < ss.length →
      insertPred ss s a = some true → insertPred ss s b = some true) ∧
    (∀ q : List scheduledMessage,
      (∀ (x : scheduledMessage) (a b : Nat), a ≤ b → b < q.length →
        insertPred q x a = some true → insertPred q x b = some true) → Descending q) :=
  ⟨insert_descending ss s h, insertPred_mono ss s h, Descending_of_insertPred_mono⟩

/-- C19 at a concrete input: inserting a record with next-fire instant 4 into the
descending slice with next-fire instants 5 and 3. -/
theorem insert_preserves_descending_witness :
    Descending
      [{ ChatID := 7, MessageID := 1, Created := 0, NextAt := 5, Complete := false },
       { ChatID := 7, MessageID := 2, Created := 0, NextAt := 3, Complete := false }] ∧
    insert
        [{ ChatID := 7, MessageID := 1, Created := 0, NextAt := 5, Complete := false },
         { ChatID := 7, MessageID := 2, Created := 0, NextAt := 3, Complete := false }]
        { ChatID := 7, MessageID := 3, Created := 0, NextAt := 4, Complete := false } =
      some
        [{ ChatID := 7, MessageID := 1, Created := 0, NextAt := 5, Complete := false },
         { ChatID := 7, MessageID := 3, Created := 0, NextAt := 4, Complete := false },
         { ChatID := 7, MessageID := 2, Created := 0, NextAt := 3, Complete := false }] ∧
    ∃ r, insert
        [{ ChatID := 7, MessageID := 1, Created := 0, NextAt := 5, Complete := false },
         { ChatID := 7, MessageID := 2, Created := 0, NextAt := 3, Complete := false }]
        { ChatID := 7, MessageID := 3, Created := 0, NextAt := 4, Complete := false } =
      some r ∧ Descending r :=
  ⟨by decide, by decide,
    (insert_preserves_descending
      [{ ChatID := 7, MessageID := 1, Created := 0, NextAt := 5, Complete := false },
       { ChatID := 7, MessageID := 2, Created := 0, NextAt := 3, Complete := false }]
      { ChatID := 7, MessageID := 3, Created := 0, NextAt := 4, Complete := false }
      (by decide)).1⟩

/-- C20: for every slice `ss`, sorted or not, and every record `s`, the search returns an
index `i` with `i ≤ len(ss)` and `insert` returns without an out-of-range access; the
result has length `len(ss) + 1`, holds `s` at index `i`, and deleting index `i` from it
gives back `ss`, elements and order unchanged. -/
theorem insert_adds_one (ss : List scheduledMessage) (s : scheduledMessage) :
    ∃ i r, Search ss.length (insertPred ss s) = some i ∧ i ≤ ss.length ∧
      insert ss s = some r ∧ r.length = ss.length + 1 ∧ r.get? i = some s ∧
      r.eraseIdx i = ss := by
  obtain ⟨i, hi, hle, hins⟩ := insert_total ss s
  have hlen : (ss.take i).length = i := by simp [List.length_take, Nat.min_eq_left hle]
  refine ⟨i, _, hi, hle, hins, ?_, ?_, ?_⟩
  · simp [List.length_take, List.length_drop, Nat.min_eq_left hle]
    omega
  · rw [List.get?_eq_getElem?, List.getElem?_append_right (by omega), hlen]
    simp
  · rw [List.eraseIdx_append_of_length_le (by omega), hlen]
    simp

end Notekeeper
